import Mathlib

/-!
Shallow embedding of the pachyderm PFS in-memory metadata driver
(`src/pfs/drive/driver.go`) together with the pieces of the Go standard
library (`path.Clean`, `path.Dir`) that the driver relies on.

Go maps are modelled as association lists with first-match lookup;
Go map assignment replaces any existing binding.  Machine integers
(`uint64` sizes) are modelled as `Nat` with explicit `% 2^64` where the
source can overflow.  Fallible Go code returns `Except String`;
potential non-termination (walks over possibly-cyclic parent pointers)
is modelled with explicit fuel returning `Option`.
-/

namespace PfsProof

/-- A Go `map`, modelled as an association list; lookup returns the first
binding for the key. -/
def GoMap (κ α : Type) : Type := List (κ × α)

instance (κ α : Type) : Inhabited (GoMap κ α) := ⟨[]⟩

instance (κ α : Type) [DecidableEq κ] [DecidableEq α] : DecidableEq (GoMap κ α) :=
  inferInstanceAs (DecidableEq (List (κ × α)))

def GoMap.empty {κ α : Type} : GoMap κ α := []

/-- Go map lookup `v, ok := m[k]`. -/
def GoMap.find? {κ α : Type} [DecidableEq κ] : GoMap κ α → κ → Option α
  | [], _ => none
  | (k', v) :: rest, k => if k' = k then some v else GoMap.find? rest k

/-- Go `delete(m, k)`. -/
def GoMap.del {κ α : Type} [DecidableEq κ] : GoMap κ α → κ → GoMap κ α
  | [], _ => []
  | (k', v) :: rest, k => if k' = k then GoMap.del rest k else (k', v) :: GoMap.del rest k

/-- Go map assignment `m[k] = v`: replaces any existing binding. -/
def GoMap.set {κ α : Type} [DecidableEq κ] (m : GoMap κ α) (k : κ) (v : α) : GoMap κ α :=
  (k, v) :: m.del k

/-- Apply `f` to the binding of `k`, if present. -/
def GoMap.update {κ α : Type} [DecidableEq κ] : GoMap κ α → κ → (α → α) → GoMap κ α
  | [], _, _ => []
  | (k', v) :: rest, k, f =>
      if k' = k then (k', f v) :: GoMap.update rest k f else (k', v) :: GoMap.update rest k f

/-- Apply `f` to every value of the map. -/
def GoMap.mapVals {κ α : Type} (m : GoMap κ α) (f : α → α) : GoMap κ α :=
  m.map (fun kv => (kv.1, f kv.2))

/-! ### Go `path.Clean` and `path.Dir`

Transcribed from the Go standard library `path` package, which the driver
uses for `path.Clean` (append keys) and `path.Dir` (the `addDirs` walk).
Paths are lists of characters. -/

/-- A slash-separated path, as a list of characters. -/
abbrev Path : Type := List Char

theorem dropWhile_length_le {α : Type} (p : α → Bool) (l : List α) :
    (l.dropWhile p).length ≤ l.length := by
  induction l with
  | nil => simp [List.dropWhile]
  | cons c rest ih =>
    by_cases h : p c
    · simp only [List.dropWhile, h]
      exact Nat.le_succ_of_le ih
    · simp [List.dropWhile, h]

/-- The write cursor of the `..`-backtracking loop inside Go `path.Clean`:
starting from `w`, walk left while `w > dotdot` and the buffered character
at `w` is not `'/'`. -/
def backW (out : Path) (dotdot : Nat) : Nat → Nat
  | 0 => 0
  | w + 1 =>
      if w + 1 > dotdot ∧ out.get? (w + 1) ≠ some '/' then backW out dotdot w
      else w + 1

/-- The `..` case of Go `path.Clean`: backtrack over the last element when
the buffer is longer than the protected `dotdot` prefix, otherwise (when not
rooted) append a `..` element and protect it. -/
def dotdotStep (rooted : Bool) (out : Path) (dotdot : Nat) : Path × Nat :=
  if dotdot < out.length then
    (out.take (backW out dotdot (out.length - 1)), dotdot)
  else if !rooted then
    if 0 < out.length then (out ++ ['/', '.', '.'], out.length + 3)
    else (out ++ ['.', '.'], out.length + 2)
  else (out, dotdot)

/-- The separator-then-segment write of Go `path.Clean`'s default case. -/
def writeSeg (rooted : Bool) (out : Path) (seg : Path) : Path :=
  (if rooted ∧ out.length ≠ 1 ∨ ¬rooted ∧ out.length ≠ 0
    then out ++ ['/'] else out) ++ seg

/-- The main loop of Go `path.Clean` over the remaining input, carrying the
output buffer and the `dotdot` low-water mark.  Every iteration consumes at
least one input character, so the structural fuel never runs out when it
starts above the input length (`cleanLoopF_irrel`); `clean` passes
`length + 1`. -/
def cleanLoopF (rooted : Bool) : Nat → Path → Path → Nat → Path
  | 0, _, out, _ => out
  | _ + 1, [], out, _ => out
  | fuel + 1, '/' :: rest, out, dd => cleanLoopF rooted fuel rest out dd
  | _ + 1, ['.'], out, _ => out
  | fuel + 1, '.' :: '/' :: rest, out, dd => cleanLoopF rooted fuel rest out dd
  | fuel + 1, '.' :: '.' :: rest, out, dd =>
      if rest = [] ∨ rest.head? = some '/' then
        cleanLoopF rooted fuel rest (dotdotStep rooted out dd).1 (dotdotStep rooted out dd).2
      else
        cleanLoopF rooted fuel (rest.dropWhile (· ≠ '/'))
          (writeSeg rooted out ('.' :: '.' :: rest.takeWhile (· ≠ '/'))) dd
  | fuel + 1, c :: rest, out, dd =>
      cleanLoopF rooted fuel (rest.dropWhile (· ≠ '/'))
        (writeSeg rooted out (c :: rest.takeWhile (· ≠ '/'))) dd

/-- Go `path.Clean`. -/
def clean (p : Path) : Path :=
  if p = [] then ['.']
  else
    let rooted := p.head? = some '/'
    let res :=
      if rooted then cleanLoopF true (p.length + 1) (p.drop 1) ['/'] 1
      else cleanLoopF false (p.length + 1) p [] 0
    if res = [] then ['.'] else res

/-- Index of the last `'/'` in a path, if any (Go `strings.LastIndex(path, "/")`). -/
def lastSlash : Path → Option Nat
  | [] => none
  | c :: rest =>
      match lastSlash rest with
      | some i => some (i + 1)
      | none => if c = '/' then some 0 else none

/-- Go `path.Dir`: drop everything after the final slash (keeping the slash,
as `path.Split` does), then `Clean` the result; `"."` when there is no slash. -/
def dir (p : Path) : Path :=
  match lastSlash p with
  | none => clean []
  | some i => clean (p.take (i + 1))

/-! ### The pfs data model (`src/pfs/drive/driver.go` and the pfs protos) -/

instance (κ α : Type) [Repr κ] [Repr α] : Repr (GoMap κ α) :=
  inferInstanceAs (Repr (List (κ × α)))

/-- `pfs.Commit`: a (repo, id) pair.  `Repo` pointers are flattened to the
repo name. -/
structure Commit where
  repo : String
  id : String
deriving DecidableEq, Repr

/-- `pfs.Diff`: the identity of a per-shard slice of a commit. -/
structure Diff where
  commit : Commit
  shard : Nat
deriving DecidableEq, Repr

/-- `pfs.BlockRef`: a byte range `[lower, upper)` of a content-addressed
block.  The bounds are `uint64`, kept as `Nat` and reduced mod `2^64` by all
arithmetic on them. -/
structure BlockRef where
  block : String
  lower : Nat
  upper : Nat
deriving DecidableEq, Repr

/-- `pfs.Append`: appended block refs (regular file) or child entries
(directory), plus the `LastRef` back-pointer.  A nil Go `Children` map is
conflated with an empty one (the source only ever tests `len > 0` and
lazily allocates it). -/
structure Append where
  blockRefs : List BlockRef
  children : GoMap Path Bool
  lastRef : Option Commit
deriving DecidableEq, Repr

/-- `pfs.DiffInfo`.  `appends` keeps the nil / non-nil distinction of the Go
map because `AddShard` tests `Appends == nil` to recognise dummy entries. -/
structure DiffInfo where
  diff : Diff
  started : Option Nat
  finished : Option Nat
  parentCommit : Option Commit
  branch : String
  sizeBytes : Nat
  appends : Option (GoMap Path Append)
deriving DecidableEq, Repr

/-- 64-bit modulus for `uint64` arithmetic. -/
def two64 : Nat := 2 ^ 64

/-- `uint64` subtraction (wraps modulo `2^64`). -/
def sub64 (a b : Nat) : Nat := (a % two64 + (two64 - b % two64)) % two64

/-- `uint64` addition (wraps modulo `2^64`). -/
def add64 (a b : Nat) : Nat := (a + b) % two64

/-- `pfs.ByteRangeSize`: `upper - lower` as `uint64`. -/
def byteRangeSize (r : BlockRef) : Nat := sub64 r.upper r.lower

/-! ### `diffMap` (three-level index `repo → shard → key → DiffInfo`) -/

/-- The `diffMap` type of the driver. -/
def DMap : Type := GoMap String (GoMap Nat (GoMap String DiffInfo))

instance : DecidableEq DMap :=
  inferInstanceAs (DecidableEq (GoMap String (GoMap Nat (GoMap String DiffInfo))))

instance : Repr DMap :=
  inferInstanceAs (Repr (GoMap String (GoMap Nat (GoMap String DiffInfo))))

instance : Inhabited DMap := ⟨[]⟩

/-- `diffMap.get`. -/
def dmGet (m : DMap) (df : Diff) : Option DiffInfo :=
  match m.find? df.commit.repo with
  | none => none
  | some shardMap =>
    match shardMap.find? df.shard with
    | none => none
    | some commitMap => commitMap.find? df.commit.id

/-- The key that `diffMap.insert` binds on success: the commit id, or the
branch name when `branchKey` is set. -/
def insKey (di : DiffInfo) (branchKey : Bool) : String :=
  if branchKey then di.branch else di.diff.commit.id

/-- `diffMap.insert`.  Note the source checks for a duplicate under the
COMMIT-ID key even when it then binds the BRANCH key (`insKey`). -/
def dmInsert (m : DMap) (di : DiffInfo) (branchKey : Bool) : Except String DMap :=
  match m.find? di.diff.commit.repo with
  | none => .error s!"repo {di.diff.commit.repo} not found"
  | some shardMap =>
      if ((((shardMap.find? di.diff.shard).getD GoMap.empty)).find? di.diff.commit.id).isSome then
        .error s!"commit {di.diff.commit.repo}/{di.diff.commit.id} already exists"
      else
        .ok (m.set di.diff.commit.repo (shardMap.set di.diff.shard
          (((shardMap.find? di.diff.shard).getD GoMap.empty).set (insKey di branchKey) di)))

/-- `diffMap.pop`: remove and return the entry under the commit-id key
(returns `none` and leaves the map unchanged when absent). -/
def dmPop (m : DMap) (df : Diff) : Option DiffInfo × DMap :=
  match m.find? df.commit.repo with
  | none => (none, m)
  | some shardMap =>
    match shardMap.find? df.shard with
    | none => (none, m)
    | some commitMap =>
      (commitMap.find? df.commit.id,
       m.set df.commit.repo (shardMap.set df.shard (commitMap.del df.commit.id)))

/-- The four views of the driver (`started`, `finished`, `leaves`,
`branches`).  The Go driver shares `*DiffInfo` pointers between views; here
each view holds the value, and the operations that mutate a `DiffInfo`
in place in Go update every view that holds it (see `updateShared`). -/
structure DriverState where
  started : DMap
  finished : DMap
  leaves : DMap
  branches : DMap
deriving DecidableEq, Repr

/-- A freshly constructed driver (`newDriver`). -/
def emptyDriver : DriverState := ⟨[], [], [], []⟩

/-- `driver.createRepoDiffMaps`. -/
def createRepoDiffMaps (s : DriverState) (repo : String) : DriverState :=
  { started := s.started.set repo GoMap.empty
    finished := s.finished.set repo GoMap.empty
    leaves := s.leaves.set repo GoMap.empty
    branches := s.branches.set repo GoMap.empty }

/-- `driver.canonicalCommit`: resolve a branch-name handle through the
branches view. -/
def canonicalCommit (s : DriverState) (c : Commit) (shard : Nat) : Commit :=
  match dmGet s.branches ⟨c, shard⟩ with
  | some di => di.diff.commit
  | none => c

/-- `driver.insertLeaf`: insert the new diff into leaves and pop its parent
from leaves if present. -/
def insertLeaf (s : DriverState) (leaf : DiffInfo) : Except String DriverState :=
  match dmInsert s.leaves leaf false with
  | .error e => .error e
  | .ok leaves1 =>
    match leaf.parentCommit with
    | none => .ok { s with leaves := leaves1 }
    | some pc =>
      let pdf : Diff := ⟨pc, leaf.diff.shard⟩
      match dmGet leaves1 pdf with
      | some _ => .ok { s with leaves := (dmPop leaves1 pdf).2 }
      | none => .ok { s with leaves := leaves1 }

/-- Apply `f` to the `DiffInfo` bound under commit id `id` of `(repo, sh)`
in every view.  This models the Go pointer sharing: when the driver mutates
a `*DiffInfo` it obtained from one view, all views holding that pointer
observe the mutation (in the branches view the entry is keyed by branch
name, so it is matched by its commit id). -/
def updateShared (s : DriverState) (repo : String) (sh : Nat) (id : String)
    (f : DiffInfo → DiffInfo) : DriverState :=
  let upd : DMap → DMap := fun m =>
    m.update repo (fun sm => sm.update sh (fun cm => cm.update id f))
  let updBr : DMap → DMap := fun m =>
    m.update repo (fun sm => sm.update sh (fun cm =>
      cm.mapVals (fun di => if di.diff.commit.id = id then f di else di)))
  { started := upd s.started
    finished := upd s.finished
    leaves := upd s.leaves
    branches := updBr s.branches }

/-! ### Driver operations

Block-store RPCs (`CreateDiff`, `DeleteDiff`, `PutBlock`, `ListDiff`) are
external collaborators: their results enter the model as parameters
(`PutBlock`'s returned refs, `ListDiff`'s replayed stream) and their own
failures, which never change the in-memory state, are not modelled. -/

/-- `pfs.File`. -/
structure File where
  commit : Commit
  path : Path
deriving DecidableEq, Repr

/-- `pfs.Shard` as used for filtering (`number` out of `modulus`). -/
structure Shard where
  number : Nat
  modulus : Nat
deriving DecidableEq, Repr

/-- Modelled from the spec: `pfs.FileInShard` is not part of the source
tree; the spec says every file path deterministically maps to exactly one
shard via an external hash treated as a black box, so the hash is a
parameter; a nil filter matches every file. -/
def fileInShard (fileHash : Path → Nat) : Option Shard → File → Bool
  | none, _ => true
  | some sh, f => fileHash f.path % sh.modulus == sh.number

/-- Modelled from the spec: `pfs.BlockInShard`, the block-hash analogue of
`fileInShard`, with the block hash as black-box parameter. -/
def blockInShard (blockHash : String → Nat) : Option Shard → String → Bool
  | none, _ => true
  | some sh, b => blockHash b % sh.modulus == sh.number

/-- `filterBlockRefs`: keep the refs whose block falls in the filter shard. -/
def filterBlockRefs (blockHash : String → Nat) (fs : Option Shard)
    (refs : List BlockRef) : List BlockRef :=
  refs.filter (fun r => blockInShard blockHash fs r.block)

/-- `driver.getDiffInfo`: look in finished first (read = true), then
started. -/
def getDiffInfo (s : DriverState) (df : Diff) : Option (DiffInfo × Bool) :=
  match dmGet s.finished df with
  | some di => some (di, true)
  | none =>
    match dmGet s.started df with
    | some di => some (di, false)
    | none => none

/-- Per-shard loop of `driver.CreateRepo`: insert the placeholder diff
(empty commit id, nil appends, `Finished` = creation time) into finished. -/
def createRepoLoop (repo : String) (created : Option Nat) :
    DriverState → List Nat → Except String DriverState
  | s, [] => .ok s
  | s, sh :: rest =>
      let di : DiffInfo :=
        { diff := ⟨⟨repo, ""⟩, sh⟩, started := none, finished := created,
          parentCommit := none, branch := "", sizeBytes := 0, appends := none }
      match dmInsert s.finished di false with
      | .error e => .error e
      | .ok fin1 => createRepoLoop repo created { s with finished := fin1 } rest

/-- `driver.CreateRepo`. -/
def createRepo (s : DriverState) (repo : String) (created : Option Nat)
    (shards : List Nat) : Except String DriverState :=
  if (s.finished.find? repo).isSome then .error s!"repo {repo} exists"
  else createRepoLoop repo created (createRepoDiffMaps s repo) shards

/-- The diff that `StartCommit` builds for a shard when a prior branch tip
with commit id `parentID` is re-pointed. -/
def branchStartDiff (repo cid br : String) (ts : Option Nat) (sh : Nat)
    (parentID : String) : DiffInfo :=
  { diff := ⟨⟨repo, cid⟩, sh⟩, started := ts, finished := none,
    parentCommit := some ⟨repo, parentID⟩, branch := br, sizeBytes := 0,
    appends := some [] }

/-- The fresh `DiffInfo` that `StartCommit` builds for one shard. -/
def newStartDiff (repo cid br : String) (ts : Option Nat) (sh : Nat) : DiffInfo :=
  { diff := ⟨⟨repo, cid⟩, sh⟩, started := ts, finished := none, parentCommit := none,
    branch := br, sizeBytes := 0, appends := some [] }

/-- The branch-tip resolution at the top of `StartCommit`'s shard body:
when a branch name is given and the branches view holds a tip, enforce the
parent-id agreement and tip-finished checks, re-point the new diff's
parent at the tip and pop the branch entry. -/
def startBranchResolve (s : DriverState) (repo cid pid br : String) (ts : Option Nat)
    (sh : Nat) : Except String (DiffInfo × DriverState) :=
  if br ≠ "" then
    match dmGet s.branches ⟨⟨repo, br⟩, sh⟩ with
    | some tip =>
        if pid ≠ "" ∧ tip.diff.commit.id ≠ pid then
          .error s!"branch {br} already exists as {tip.diff.commit.id}, can't create with {pid} as parent"
        else if (dmGet s.finished tip.diff).isNone then
          .error s!"branch {br} already has a started (but unfinished) commit {tip.diff.commit.id}"
        else
          .ok (branchStartDiff repo cid br ts sh tip.diff.commit.id,
               { s with branches := (dmPop s.branches ⟨⟨repo, br⟩, sh⟩).2 })
    | none => .ok (newStartDiff repo cid br ts sh, s)
  else .ok (newStartDiff repo cid br ts sh, s)

/-- The tail of `StartCommit`'s shard body: insert the diff in branches
(when on a branch), in started, and run the leaves update. -/
def startTail (sA : DriverState) (di2 : DiffInfo) (br : String) :
    Except String DriverState :=
  match (if br ≠ "" then
      match dmInsert sA.branches di2 true with
      | .error e => .error e
      | .ok br1 => .ok { sA with branches := br1 }
    else .ok sA : Except String DriverState) with
  | .error e => .error e
  | .ok s2 =>
      match dmInsert s2.started di2 false with
      | .error e => .error e
      | .ok st1 => insertLeaf { s2 with started := st1 } di2

/-- One shard of `driver.StartCommit`: branch-tip resolution, the
fallback to the explicit parent id, then branch / started / leaves
updates. -/
def startCommitShard (s : DriverState) (repo commitID parentID branchName : String)
    (ts : Option Nat) (sh : Nat) : Except String DriverState :=
  match startBranchResolve s repo commitID parentID branchName ts sh with
  | .error e => .error e
  | .ok (di1, sA) =>
      startTail sA
        (if di1.parentCommit = none ∧ parentID ≠ "" then
          { di1 with parentCommit := some ⟨repo, parentID⟩ }
        else di1) branchName

/-- The shard loop of `driver.StartCommit`. -/
def startCommitLoop (repo commitID parentID branchName : String) (ts : Option Nat) :
    DriverState → List Nat → Except String DriverState
  | s, [] => .ok s
  | s, sh :: rest =>
      match startCommitShard s repo commitID parentID branchName ts sh with
      | .error e => .error e
      | .ok s1 => startCommitLoop repo commitID parentID branchName ts s1 rest

/-- `driver.StartCommit`. -/
def startCommit (s : DriverState) (repo commitID parentID branchName : String)
    (ts : Option Nat) (shards : List Nat) : Except String DriverState :=
  startCommitLoop repo commitID parentID branchName ts s shards

/-- The shard loop of `driver.FinishCommit`: the commit handle is
canonicalized through the branches view and reassigned across iterations,
the diff is popped from started (error when absent), stamped and inserted
into finished; the stamp is visible through every view holding the shared
`DiffInfo`. -/
def finishCommitLoop (ts : Option Nat) :
    DriverState → Commit → List Nat → Except String DriverState
  | s, _, [] => .ok s
  | s, c, sh :: rest =>
      match (dmPop s.started ⟨canonicalCommit s c sh, sh⟩).1 with
      | none =>
          .error s!"commit {(canonicalCommit s c sh).repo}/{(canonicalCommit s c sh).id} not found"
      | some di =>
          match dmInsert s.finished { di with finished := ts } false with
          | .error e => .error e
          | .ok fin1 =>
              finishCommitLoop ts
                (updateShared
                  { s with started := (dmPop s.started ⟨canonicalCommit s c sh, sh⟩).2
                           finished := fin1 }
                  (canonicalCommit s c sh).repo sh (canonicalCommit s c sh).id
                  (fun _ => { di with finished := ts }))
                (canonicalCommit s c sh) rest

/-- `driver.FinishCommit` (the mirroring `CreateDiff` fan-out does not
change in-memory state and is not modelled). -/
def finishCommit (s : DriverState) (c : Commit) (ts : Option Nat)
    (shards : List Nat) : Except String DriverState :=
  finishCommitLoop ts s c shards

/-- `pfs.CommitType`. -/
inductive CommitType where
  | read
  | write
deriving DecidableEq, Repr

/-- `pfs.CommitInfo`. -/
structure CommitInfo where
  commit : Commit
  commitType : CommitType
  branch : String
  parentCommit : Option Commit
  started : Option Nat
  finished : Option Nat
  sizeBytes : Nat
deriving DecidableEq, Repr

/-- Modelled from the spec: `pfs.ReduceCommitInfos` is not in the source
tree; per the spec it combines the per-shard CommitInfos into exactly one,
adding sizes, producing nothing from an empty input. -/
def reduceCommitInfos : List CommitInfo → List CommitInfo
  | [] => []
  | ci :: rest =>
      [rest.foldl (fun acc x => { acc with sizeBytes := add64 acc.sizeBytes x.sizeBytes }) ci]

/-- The shard loop of `driver.inspectCommit`: canonicalize (reassigning the
handle), look up finished (READ) else started (WRITE), build the per-shard
CommitInfo. -/
def inspectCommitLoop (s : DriverState) :
    Commit → List Nat → List CommitInfo → Except String (Commit × List CommitInfo)
  | c, [], acc => .ok (c, acc)
  | c, sh :: rest, acc =>
      let c' := canonicalCommit s c sh
      match getDiffInfo s ⟨c', sh⟩ with
      | none =>
          let r := c'.repo
          let i := c'.id
          .error s!"commit {r}/{i} not found"
      | some (di, read) =>
          let ci : CommitInfo :=
            { commit := c', commitType := if read then .read else .write,
              branch := di.branch, parentCommit := di.parentCommit,
              started := di.started, finished := di.finished, sizeBytes := di.sizeBytes }
          inspectCommitLoop s c' rest (acc ++ [ci])

/-- `driver.inspectCommit`. -/
def inspectCommit (s : DriverState) (c : Commit) (shards : List Nat) :
    Except String CommitInfo :=
  match inspectCommitLoop s c shards [] with
  | .error e => .error e
  | .ok (c', cis) =>
    match reduceCommitInfos cis with
    | [] =>
        let r := c'.repo
        let i := c'.id
        .error s!"commit {r}/{i} not found"
    | [ci] => .ok ci
    | _ => .error "multiple commitInfos, (this is likely a bug)"

/-- `driver.lastRef`: walk the finished view along `ParentCommit`, returning
the first ancestor whose diff has an append for the cleaned path.  The
source dereferences the looked-up `*DiffInfo` without checking `ok`, so a
commit missing from finished is a nil-pointer panic; both that panic and
running out of fuel (a non-terminating walk over cyclic parent pointers)
are modelled as `none`.  A nil `Appends` map reads as having no keys. -/
def lastRef (s : DriverState) (sh : Nat) (p : Path) :
    Nat → Option Commit → Option (Option Commit)
  | _, none => some none
  | 0, some _ => none
  | fuel + 1, some c =>
      match dmGet s.finished ⟨c, sh⟩ with
      | none => none
      | some di =>
          if ((di.appends.getD []).find? (clean p)).isSome then some (some c)
          else lastRef s sh p fuel di.parentCommit

/-- The loop of `addDirs`: walk `dir` upward recording the immediate child
in each ancestor directory's `Children`, stopping at `"."`; `none` when the
walk does not reach `"."` within the given fuel (for a rooted path it never
does). -/
def addDirsLoop : Nat → GoMap Path Append → Path → Path → Option (GoMap Path Append)
  | 0, _, _, _ => none
  | fuel + 1, appends, childPath, dirP =>
      let ap := (appends.find? dirP).getD ⟨[], [], none⟩
      let ap' := { ap with children := ap.children.set childPath true }
      let appends' := appends.set dirP ap'
      if dirP = ['.'] then some appends'
      else addDirsLoop fuel appends' dirP (dir dirP)

/-- `addDirs` (on the diff's appends map; the child path is the file's raw,
uncleaned path, exactly as in the source). -/
def addDirs (fuel : Nat) (appends : GoMap Path Append) (childPath : Path) :
    Option (GoMap Path Append) :=
  addDirsLoop fuel appends childPath (dir childPath)

/-- `driver.PutFile`.  The block store's `PutBlock` reply enters as
`newRefs`.  `none` models a run that panics (`lastRef` on a broken parent
chain) or fails to terminate (`addDirs` on a rooted path, a cyclic parent
chain) within `fuel`. -/
def putFile (s : DriverState) (file : File) (sh : Nat) (newRefs : List BlockRef)
    (fuel : Nat) : Option (Except String DriverState) :=
  let c := canonicalCommit s file.commit sh
  match dmGet s.started ⟨c, sh⟩ with
  | none =>
      let r := c.repo
      let i := c.id
      some (.error s!"commit {r}/{i} not found")
  | some di =>
      match di.appends with
      | none => none
      | some aps =>
        match addDirs fuel aps file.path with
        | none => none
        | some aps1 =>
          let key := clean file.path
          let apE : Option (Option Append) :=
            match aps1.find? key with
            | some ap => some (some ap)
            | none =>
                match di.parentCommit with
                | none => some none
                | some pc =>
                    match lastRef s sh file.path fuel (some pc) with
                    | none => none
                    | some lr => some (some ⟨[], [], lr⟩)
          match apE with
          | none => none
          | some apO =>
            let ap := apO.getD ⟨[], [], none⟩
            let ap' := { ap with blockRefs := ap.blockRefs ++ newRefs }
            let size' := newRefs.foldl (fun a r => add64 a (byteRangeSize r)) di.sizeBytes
            let di' := { di with appends := some (aps1.set key ap'), sizeBytes := size' }
            some (.ok (updateShared s c.repo sh c.id (fun _ => di')))

/-- `pfs.FileType`. -/
inductive FileType where
  | nofile
  | regular
  | directory
deriving DecidableEq, Repr

/-- `pfs.FileInfo`. -/
structure FileInfo where
  file : File
  fileType : FileType
  sizeBytes : Nat
  commitModified : Option Commit
  modified : Option Nat
  children : List File
deriving DecidableEq, Repr

/-- `pfs.ErrFileNotFound`. -/
def errFileNotFound : String := "file not found"

/-- End of the `inspectFile` walk: a type still `NONE` means the file was
never found. -/
def inspectFinish (fi : FileInfo) (refs : List BlockRef) :
    Except String (FileInfo × List BlockRef) :=
  if fi.fileType = .nofile then .error errFileNotFound else .ok (fi, refs)

/-- One directory merge step of `inspectFile`: add the append's children
not yet seen, in map order, as files of the current commit. -/
def mergeChildren (c : Commit) (kids : GoMap Path Bool) (fiKids : List File)
    (seen : GoMap Path Bool) : List File × GoMap Path Bool :=
  kids.foldl
    (fun acc kv =>
      let acc1 := if (acc.2.find? kv.1).getD false then acc.1 else acc.1 ++ [File.mk c kv.1]
      (acc1, acc.2.set kv.1 true))
    (fiKids, seen)

/-- The ancestry walk of `driver.inspectFile` (fuel models the unbounded
`for` loop; `none` = no termination within fuel). -/
def inspectFileLoop (s : DriverState) (blockHash : String → Nat) (fileHash : Path → Nat)
    (filterShard : Option Shard) (sh : Nat) (file : File) (fromC : Option Commit) :
    Nat → Option Commit → FileInfo → List BlockRef → GoMap Path Bool →
    Option (Except String (FileInfo × List BlockRef))
  | 0, _, _, _, _ => none
  | _ + 1, none, fi, refs, _ => some (inspectFinish fi refs)
  | fuel + 1, some c, fi, refs, seen =>
      if fromC.any (fun f => f.id = c.id) then some (inspectFinish fi refs)
      else
        match getDiffInfo s ⟨c, sh⟩ with
        | none =>
            let r := c.repo
            let i := c.id
            some (.error s!"diff {r}/{i} not found")
        | some (di, _) =>
          match (di.appends.getD []).find? (clean file.path) with
          | none => inspectFileLoop s blockHash fileHash filterShard sh file fromC
              fuel di.parentCommit fi refs seen
          | some ap =>
            if 0 < ap.blockRefs.length then
              if fi.fileType = .directory then
                let r := file.commit.repo
                let i := file.commit.id
                let p := String.mk file.path
                some (.error s!"mixed dir and regular file {r}/{i}/{p}, (this is likely a bug)")
              else if fi.fileType = .nofile ∧ ¬fileInShard fileHash filterShard file then
                some (.error errFileNotFound)
              else
                let filtered := filterBlockRefs blockHash filterShard ap.blockRefs
                let sz := filtered.foldl (fun a r => add64 a (byteRangeSize r)) fi.sizeBytes
                let fi1 := { fi with fileType := FileType.regular, sizeBytes := sz }
                let fi2 := if fi1.commitModified = none then
                    { fi1 with commitModified := some c, modified := di.finished } else fi1
                inspectFileLoop s blockHash fileHash filterShard sh file fromC
                  fuel ap.lastRef fi2 (filtered ++ refs) seen
            else if 0 < ap.children.length then
              if fi.fileType = .regular then
                let r := file.commit.repo
                let i := file.commit.id
                let p := String.mk file.path
                some (.error s!"mixed dir and regular file {r}/{i}/{p}, (this is likely a bug)")
              else
                let merged := mergeChildren c ap.children fi.children seen
                let fi1 := { fi with fileType := FileType.directory, children := merged.1 }
                let fi2 := if fi1.commitModified = none then
                    { fi1 with commitModified := some c, modified := di.finished } else fi1
                inspectFileLoop s blockHash fileHash filterShard sh file fromC
                  fuel ap.lastRef fi2 refs merged.2
            else
              let fi2 := if fi.commitModified = none then
                  { fi with commitModified := some c, modified := di.finished } else fi
              inspectFileLoop s blockHash fileHash filterShard sh file fromC
                fuel ap.lastRef fi2 refs seen

/-- `driver.inspectFile` (after the caller-side canonicalization that
`InspectFile`, `GetFile` and `ListFile` all perform). -/
def inspectFile (s : DriverState) (blockHash : String → Nat) (fileHash : Path → Nat)
    (file : File) (filterShard : Option Shard) (sh : Nat) (fromC : Option Commit)
    (fuel : Nat) : Option (Except String (FileInfo × List BlockRef)) :=
  let file' : File := { file with commit := canonicalCommit s file.commit sh }
  inspectFileLoop s blockHash fileHash filterShard sh file' fromC fuel
    (some file'.commit)
    { file := file', fileType := .nofile, sizeBytes := 0,
      commitModified := none, modified := none, children := [] }
    [] []

/-- `driver.DeleteShard`'s in-memory effect: drop the shard from every
repo's map in finished and in started only.  (The source's
`defer d.lock.Lock()` self-deadlock, flagged by the spec, is a concurrency
artifact outside this embedding.) -/
def deleteShard (s : DriverState) (sh : Nat) : DriverState :=
  { s with finished := s.finished.mapVals (fun sm => sm.del sh)
           started := s.started.mapVals (fun sm => sm.del sh) }

/-- `driver.DeleteRepo`'s in-memory effect: remove the repo from started,
finished and leaves; branches are left dangling. -/
def deleteRepo (s : DriverState) (repo : String) : DriverState :=
  { s with started := s.started.del repo
           finished := s.finished.del repo
           leaves := s.leaves.del repo }

/-- The dummy `DiffInfo` that `AddShard` records for a parent seen before
its own diff arrives: just the diff identity, nil appends. -/
def dummyDiffInfo (df : Diff) : DiffInfo :=
  ⟨df, none, none, none, "", 0, none⟩

/-- The streaming loop of `driver.AddShard`: insert each incoming diff into
finished (creating the repo's map layers on first sight) and maintain the
provisional leaves `diffMap` local to the call.  Errors leave the partially
mutated driver state in place, as in the source. -/
def addShardLoop (sh : Nat) :
    DriverState → DMap → List DiffInfo → DriverState × DMap × Option String
  | s, leaves, [] => (s, leaves, none)
  | s, leaves, di :: rest =>
      let s1 := if (s.finished.find? di.diff.commit.repo).isSome then s
        else createRepoDiffMaps s di.diff.commit.repo
      match dmInsert s1.finished di false with
      | .error e => (s1, leaves, some e)
      | .ok fin1 =>
        let s2 := { s1 with finished := fin1 }
        let afterParent : DMap ⊕ String :=
          match di.parentCommit with
          | none => .inl leaves
          | some pc =>
              let pr := dmPop leaves ⟨pc, sh⟩
              match pr.1 with
              | some _ => .inl pr.2
              | none =>
                  match dmInsert pr.2 (dummyDiffInfo ⟨pc, sh⟩) false with
                  | .error e => .inr e
                  | .ok lv => .inl lv
        match afterParent with
        | .inr e => (s2, leaves, some e)
        | .inl lv1 =>
            let pr2 := dmPop lv1 di.diff
            match pr2.1 with
            | some _ => addShardLoop sh s2 pr2.2 rest
            | none =>
                match dmInsert pr2.2 di false with
                | .error e => (s2, pr2.2, some e)
                | .ok lv2 => addShardLoop sh s2 lv2 rest

/-- Innermost loop of `AddShard`'s final pass: each provisional leaf with
nil appends is a dangling parent (error); the rest go into the driver's
leaves view. -/
def addShardFinishCommits :
    DriverState → String → List (String × DiffInfo) → DriverState × Option String
  | s, _, [] => (s, none)
  | s, repo, (cid, di) :: rest =>
      if di.appends = none then
        (s, some s!"diffInfos reference a parent that doesn't exist {repo}/{cid}")
      else
        match dmInsert s.leaves di false with
        | .error e => (s, some e)
        | .ok lv => addShardFinishCommits { s with leaves := lv } repo rest

/-- Shard level of `AddShard`'s final pass. -/
def addShardFinishShards :
    DriverState → String → List (Nat × GoMap String DiffInfo) → DriverState × Option String
  | s, _, [] => (s, none)
  | s, repo, (_, cm) :: rest =>
      match addShardFinishCommits s repo cm with
      | (s1, some e) => (s1, some e)
      | (s1, none) => addShardFinishShards s1 repo rest

/-- Repo level of `AddShard`'s final pass. -/
def addShardFinishRepos :
    DriverState → List (String × GoMap Nat (GoMap String DiffInfo)) → DriverState × Option String
  | s, [] => (s, none)
  | s, (repo, sm) :: rest =>
      match addShardFinishShards s repo sm with
      | (s1, some e) => (s1, some e)
      | (s1, none) => addShardFinishRepos s1 rest

/-- `driver.AddShard`: the block store's `ListDiff(shard)` stream enters as
the `replay` list; the result is the (possibly partially) mutated driver
state together with the error, if any. -/
def addShard (s : DriverState) (sh : Nat) (replay : List DiffInfo) :
    DriverState × Option String :=
  match addShardLoop sh s [] replay with
  | (s1, _, some e) => (s1, some e)
  | (s1, leaves, none) => addShardFinishRepos s1 leaves

/-- The skip loop at the top of `fileReader.Read`.  `staleSize` is the size
of the block ref captured once before the loop (`blockRef :=
r.blockRefs[r.index]`): the source keeps comparing the remaining offset
against this one size while advancing the index.  Fuel covers the loop's
possible divergence when that size is zero. -/
def fileReaderSkip (staleSize : Nat) : Nat → Nat → Nat → Nat × Nat
  | 0, index, offset => (index, offset)
  | fuel + 1, index, offset =>
      if offset ≠ 0 ∧ staleSize < offset then
        fileReaderSkip staleSize fuel (index + 1) (offset - staleSize)
      else (index, offset)

/-- The block-opening step of `fileReader.Read` when no reader is open:
which block index is opened, and at which residual offset, for a reader
positioned at `index` with remaining `offset`.  `none` when `index` is
already past the refs (the `io.EOF` case). -/
def fileReaderOpen (refs : List BlockRef) (index offset : Nat) : Option (Nat × Nat) :=
  match refs.get? index with
  | none => none
  | some br => some (fileReaderSkip (byteRangeSize br) (offset + 1) index offset)

/-- Walk of the spec's skip contract over the remaining refs. -/
def fileReaderSkipSpecGo : List BlockRef → Nat → Nat → Nat × Nat
  | [], index, offset => (index, offset)
  | br :: rest, index, offset =>
      if offset ≠ 0 ∧ byteRangeSize br < offset then
        fileReaderSkipSpecGo rest (index + 1) (offset - byteRangeSize br)
      else (index, offset)

/-- Modelled from the spec: the FileReader streaming contract says the
reader skips forward by discarding whole blocks whose size is smaller than
the remaining offset, then opens the first straddling block at the
residual offset. -/
def fileReaderSkipSpec (refs : List BlockRef) (index offset : Nat) : Nat × Nat :=
  fileReaderSkipSpecGo (refs.drop index) index offset


/-! ### Derived notions used by the verification -/

/-- Whether an `Except` succeeded. -/
def exOk {ε α : Type} : Except ε α → Bool
  | .ok _ => true
  | .error _ => false

instance {ε α : Type} [DecidableEq ε] [DecidableEq α] : DecidableEq (Except ε α) :=
  fun x y =>
    match x, y with
    | .ok a, .ok b =>
        if h : a = b then isTrue (by rw [h]) else isFalse (fun hc => h (Except.ok.inj hc))
    | .error a, .error b =>
        if h : a = b then isTrue (by rw [h]) else isFalse (fun hc => h (Except.error.inj hc))
    | .ok _, .error _ => isFalse (fun hc => Except.noConfusion hc)
    | .error _, .ok _ => isFalse (fun hc => Except.noConfusion hc)

/-- Flattened three-level lookup in a `diffMap`. -/
def dmFind (m : DMap) (repo : String) (sh : Nat) (k : String) : Option DiffInfo :=
  ((((m.find? repo).getD GoMap.empty).find? sh).getD GoMap.empty).find? k

/-- A branch tip recorded in the branches view under its branch name `"b"`
(its own commit id is `"t"`). -/
def tipC6 : DiffInfo :=
  { diff := ⟨⟨"r", "t"⟩, 0⟩, started := some 1, finished := none,
    parentCommit := none, branch := "b", sizeBytes := 0, appends := some [] }

/-- A one-repo `diffMap` whose `(r, 0)` layer binds the branch key `"b"`. -/
def mC6 : DMap := [("r", [(0, [("b", tipC6)])])]

/-- A new diff with commit id `"c"` on branch `"b"`. -/
def dC6 : DiffInfo :=
  { diff := ⟨⟨"r", "c"⟩, 0⟩, started := some 2, finished := none,
    parentCommit := none, branch := "b", sizeBytes := 0, appends := some [] }

/-- Three block refs of sizes 5, 2 and 5 for the fileReader skip analysis. -/
def refsC7 : List BlockRef := [⟨"x", 0, 5⟩, ⟨"y", 0, 2⟩, ⟨"z", 0, 5⟩]

/-- The `[0,5)` block ref of scenario S2 (`PutBlock`'s reply for "hello"). -/
def blockRefA : BlockRef := ⟨"b1", 0, 5⟩

/-- The `[0,1)` block ref of scenario S3 (`PutBlock`'s reply for "!"). -/
def blockRefB : BlockRef := ⟨"b2", 0, 1⟩

/-- Unwrap a scenario construction (all of which succeed). -/
def scenarioState (r : Except String DriverState) : DriverState :=
  match r with
  | .ok s => s
  | .error _ => emptyDriver

/-- The spec's S2 state: CreateRepo, StartCommit c1, PutFile, FinishCommit
— built with the relative path "a" (PutFile on the spec's rooted "/a"
never terminates, see the addDirs claim). -/
def stS2 : DriverState := scenarioState (do
  let s ← createRepo emptyDriver "r" (some 0) [0, 1]
  let s ← startCommit s "r" "c1" "" "" (some 1) [0, 1]
  let s ← match putFile s ⟨⟨"r", "c1"⟩, ['a']⟩ 0 [blockRefA] 10 with
    | some rr => rr
    | none => .error "diverged"
  finishCommit s ⟨"r", "c1"⟩ (some 2) [0, 1])

/-- The spec's S3 state on top of S2: empty commit c2, then c3 appending
one more byte to the file. -/
def stS3 : DriverState := scenarioState (do
  let s ← startCommit stS2 "r" "c2" "c1" "" (some 3) [0, 1]
  let s ← finishCommit s ⟨"r", "c2"⟩ (some 4) [0, 1]
  let s ← startCommit s "r" "c3" "c2" "" (some 5) [0, 1]
  let s ← match putFile s ⟨⟨"r", "c3"⟩, ['a']⟩ 0 [blockRefB] 10 with
    | some rr => rr
    | none => .error "diverged"
  finishCommit s ⟨"r", "c3"⟩ (some 6) [0, 1])

/-- The commit chain reached from `c` by following `ParentCommit` through
the finished view: defined (`some`) exactly when every reached commit has
a finished diff for the shard within the fuel — the precondition under
which `lastRef` cannot hit its nil-dereference. -/
def finishedChain (s : DriverState) (sh : Nat) : Nat → Option Commit → Option (List Commit)
  | _, none => some []
  | 0, some _ => none
  | fuel + 1, some c =>
      match dmGet s.finished ⟨c, sh⟩ with
      | none => none
      | some di =>
          match finishedChain s sh fuel di.parentCommit with
          | none => none
          | some l => some (c :: l)

/-- Whether a commit's finished diff has an append for the cleaned path. -/
def hasCleanAppend (s : DriverState) (sh : Nat) (p : Path) (c : Commit) : Bool :=
  match dmGet s.finished ⟨c, sh⟩ with
  | none => false
  | some di => ((di.appends.getD []).find? (clean p)).isSome

/-- S3's c1 diff as the spec describes it for path "/a" (5 bytes written). -/
def diS3c1 : DiffInfo :=
  ⟨⟨⟨"r", "c1"⟩, 0⟩, some 1, some 2, none, "", 5,
    some [(['/', 'a'], ⟨[blockRefA], [], none⟩)]⟩

/-- S3's empty middle commit c2. -/
def diS3c2 : DiffInfo :=
  ⟨⟨⟨"r", "c2"⟩, 0⟩, some 3, some 4, some ⟨"r", "c1"⟩, "", 0, some []⟩

/-- S3's c3 diff: one more byte for "/a", `LastRef` jumping to c1. -/
def diS3c3 : DiffInfo :=
  ⟨⟨⟨"r", "c3"⟩, 0⟩, some 5, some 6, some ⟨"r", "c2"⟩, "", 1,
    some [(['/', 'a'], ⟨[blockRefB], [], some ⟨"r", "c1"⟩⟩)]⟩

/-- The S3 state with the spec's literal rooted path "/a", laid out
directly (the driver cannot produce it because `PutFile` on a rooted path
never leaves `addDirs`; the per-commit appends are exactly those the spec's
S3 describes). -/
def stS3Slash : DriverState :=
  { started := [("r", [(0, [])])]
    finished := [("r", [(0, [("c1", diS3c1), ("c2", diS3c2), ("c3", diS3c3)])])]
    leaves := [("r", [(0, [("c3", diS3c3)])])]
    branches := [("r", [])] }

/-- The FileInfo that S3's `InspectFile` on "/a" returns. -/
def fiS3Slash : FileInfo :=
  ⟨⟨⟨"r", "c3"⟩, ['/', 'a']⟩, .regular, 6, some ⟨"r", "c3"⟩, some 6, []⟩

/-- The per-shard canonical commits of a `FinishCommit` request: the handle
is canonicalized against the branches view and reassigned across the shard
loop, so each shard resolves the previous shard's canonical commit. -/
def finishCanonPairs (s : DriverState) : Commit → List Nat → List (Commit × Nat)
  | _, [] => []
  | c, sh :: rest =>
      (canonicalCommit s c sh, sh) :: finishCanonPairs s (canonicalCommit s c sh) rest

/-- Per-entry key consistency of a commit-keyed map layer: every stored
`DiffInfo` carries exactly the (repo, id, shard) it is filed under. -/
def keyOkCM (repo : String) (sh : Nat) : GoMap String DiffInfo → Bool
  | [] => true
  | (id, di) :: rest => decide (di.diff = ⟨⟨repo, id⟩, sh⟩) && keyOkCM repo sh rest

/-- Shard layer of `keyOkCM`. -/
def keyOkSM (repo : String) : GoMap Nat (GoMap String DiffInfo) → Bool
  | [] => true
  | (sh, cm) :: rest => keyOkCM repo sh cm && keyOkSM repo rest

/-- A commit-keyed `diffMap` is key-consistent. -/
def keyOkDM : DMap → Bool
  | [] => true
  | (repo, sm) :: rest => keyOkSM repo sm && keyOkDM rest

/-- Branch-keyed layer consistency: values live in the right repo and
shard (their commit id is unrelated to the branch-name key). -/
def brOkCM (repo : String) (sh : Nat) : GoMap String DiffInfo → Bool
  | [] => true
  | (_, di) :: rest =>
      (decide (di.diff.commit.repo = repo) && decide (di.diff.shard = sh)) && brOkCM repo sh rest

/-- Shard layer of `brOkCM`. -/
def brOkSM (repo : String) : GoMap Nat (GoMap String DiffInfo) → Bool
  | [] => true
  | (sh, cm) :: rest => brOkCM repo sh cm && brOkSM repo rest

/-- The branches `diffMap` is value-consistent. -/
def brOkDM : DMap → Bool
  | [] => true
  | (repo, sm) :: rest => brOkSM repo sm && brOkDM rest

/-- Well-formedness of a driver state, as every reachable state satisfies
it: started and finished are commit-keyed consistently, branch entries
point into their own repo and shard. -/
def wfB (s : DriverState) : Bool :=
  keyOkDM s.started && keyOkDM s.finished && brOkDM s.branches

/-- Key consistency of a commit-keyed `diffMap`, as a proposition over
lookups. -/
def dmWFp (m : DMap) : Prop :=
  ∀ repo sh id di, dmFind m repo sh id = some di → di.diff = ⟨⟨repo, id⟩, sh⟩

/-- Value consistency of the branches `diffMap`, as a proposition over
lookups. -/
def brWFp (m : DMap) : Prop :=
  ∀ repo sh id di, dmFind m repo sh id = some di →
    di.diff.commit.repo = repo ∧ di.diff.shard = sh

/-- Well-formedness of a driver state; every reachable state satisfies it. -/
def wfP (s : DriverState) : Prop :=
  dmWFp s.started ∧ dmWFp s.finished ∧ brWFp s.branches

/-- A repo with one open commit c1 on shard 0, for the FinishCommit
witness. -/
def stC4 : DriverState := scenarioState (do
  let s ← createRepo emptyDriver "r" (some 0) [0]
  startCommit s "r" "c1" "" "" (some 1) [0])

/-- `stC4` after finishing c1. -/
def stC4' : DriverState := scenarioState (finishCommit stC4 ⟨"r", "c1"⟩ (some 2) [0])

/-- A branch tip for the `StartCommit` branch scenario: commit `"t"` on
branch `"b"` of repo `"r"`, already finished. -/
def tipC5 : DiffInfo :=
  { diff := ⟨⟨"r", "t"⟩, 0⟩, started := some 1, finished := some 2,
    parentCommit := none, branch := "b", sizeBytes := 0, appends := some [] }

/-- A driver state holding `tipC5` in the branches, finished and leaves
views of repo `"r"`. -/
def stC5 : DriverState :=
  { started := [("r", [])],
    finished := [("r", [(0, [("t", tipC5)])])],
    leaves := [("r", [(0, [("t", tipC5)])])],
    branches := [("r", [(0, [("b", tipC5)])])] }

/-- The iterates of `path.Dir` (the walk `addDirs` performs). -/
def dirIter : Nat → Path → Path
  | 0, p => p
  | n + 1, p => dirIter n (dir p)

/-- The `Children` lookup of the `Append` recorded under directory `d`
(absent directories read as the zero `Append`, as `addDirs` does). -/
def lookupChild (aps : GoMap Path Append) (d c : Path) : Option Bool :=
  ((aps.find? d).getD ⟨[], [], none⟩).children.find? c

/-- A finished diff of repo `"r"` for the round-trip scenario. -/
def diC1 : DiffInfo :=
  { diff := ⟨⟨"r", "c"⟩, 0⟩, started := some 1, finished := some 2,
    parentCommit := none, branch := "", sizeBytes := 0, appends := some [] }

/-- The all-finished driver state holding `diC1` (finished and leaves hold
the diff, started and branches have the repo layer only). -/
def stC1 : DriverState :=
  { started := [("r", [])],
    finished := [("r", [(0, [("c", diC1)])])],
    leaves := [("r", [(0, [("c", diC1)])])],
    branches := [("r", [])] }

/-! ## Verification -/

theorem GoMap.find?_del {κ α : Type} [DecidableEq κ] (m : GoMap κ α) (k k' : κ) :
    (m.del k).find? k' = if k = k' then none else m.find? k' := by
  induction m with
  | nil => simp [GoMap.del, GoMap.find?]
  | cons kv rest ih =>
    obtain ⟨k0, v0⟩ := kv
    by_cases h0 : k0 = k
    · subst h0
      simp only [GoMap.del, if_pos rfl, GoMap.find?]
      by_cases h1 : k0 = k'
      · subst h1; simp [ih]
      · simp [h1, ih]
    · simp only [GoMap.del, if_neg h0, GoMap.find?]
      by_cases h1 : k0 = k'
      · subst h1
        have hne : ¬k = k0 := fun h => h0 h.symm
        simp [if_neg hne, GoMap.find?]
      · simp [GoMap.find?, h1, ih]

theorem GoMap.find?_set {κ α : Type} [DecidableEq κ] (m : GoMap κ α) (k k' : κ) (v : α) :
    (m.set k v).find? k' = if k = k' then some v else m.find? k' := by
  show (if k = k' then some v else GoMap.find? (m.del k) k') = _
  by_cases h : k = k'
  · simp [h]
  · simp [if_neg h, GoMap.find?_del, h]

theorem GoMap.find?_update {κ α : Type} [DecidableEq κ] (m : GoMap κ α) (k k' : κ)
    (f : α → α) :
    (m.update k f).find? k' =
      if k = k' then (m.find? k).map f else m.find? k' := by
  induction m with
  | nil => simp [GoMap.update, GoMap.find?]
  | cons kv rest ih =>
    obtain ⟨k0, v0⟩ := kv
    by_cases h0 : k0 = k
    · subst h0
      simp only [GoMap.update, if_pos rfl, GoMap.find?]
      by_cases h1 : k0 = k' <;> simp [h1, ih]
    · simp only [GoMap.update, if_neg h0, GoMap.find?]
      by_cases h1 : k0 = k'
      · subst h1
        have hne : ¬k = k0 := fun h => h0 h.symm
        simp [if_neg hne]
      · simp [h1, ih]


theorem GoMap.find?_mapVals {κ α : Type} [DecidableEq κ] (m : GoMap κ α) (f : α → α)
    (k : κ) : (m.mapVals f).find? k = (m.find? k).map f := by
  induction m with
  | nil => simp [GoMap.mapVals, GoMap.find?]
  | cons kv rest ih =>
    obtain ⟨k0, v0⟩ := kv
    by_cases h : k0 = k
    · simp [GoMap.mapVals, GoMap.find?, h]
    · simp only [GoMap.mapVals, List.map, GoMap.find?, if_neg h]
      exact ih

theorem dmGet_eq (m : DMap) (df : Diff) :
    dmGet m df = dmFind m df.commit.repo df.shard df.commit.id := by
  unfold dmGet dmFind
  cases h : m.find? df.commit.repo with
  | none => simp [GoMap.find?, GoMap.empty]
  | some sm =>
    simp only [Option.getD]
    cases h2 : sm.find? df.shard with
    | none => simp [GoMap.find?, GoMap.empty]
    | some cm => simp


theorem dmInsert_error_repo (m : DMap) (di : DiffInfo) (bk : Bool)
    (h : m.find? di.diff.commit.repo = none) :
    dmInsert m di bk = .error s!"repo {di.diff.commit.repo} not found" := by
  unfold dmInsert
  rw [h]

theorem dmInsert_ok_iff (m : DMap) (di : DiffInfo) (bk : Bool) :
    exOk (dmInsert m di bk) = true ↔
      ((m.find? di.diff.commit.repo).isSome = true ∧
        dmFind m di.diff.commit.repo di.diff.shard di.diff.commit.id = none) := by
  unfold dmInsert dmFind
  cases h : m.find? di.diff.commit.repo with
  | none => simp [exOk]
  | some sm =>
    cases h3 : ((sm.find? di.diff.shard).getD GoMap.empty).find? di.diff.commit.id with
    | none => simp [h3, exOk]
    | some d0 => simp [h3, exOk]

theorem dmFind_dmInsert (m m' : DMap) (di : DiffInfo) (bk : Bool)
    (h : dmInsert m di bk = .ok m') (r : String) (sh : Nat) (k : String) :
    dmFind m' r sh k =
      if r = di.diff.commit.repo ∧ sh = di.diff.shard ∧ k = insKey di bk then some di
      else dmFind m r sh k := by
  unfold dmInsert at h
  cases hr : m.find? di.diff.commit.repo with
  | none => rw [hr] at h; exact absurd h (by simp)
  | some sm =>
    rw [hr] at h
    dsimp only at h
    by_cases hdup : (((sm.find? di.diff.shard).getD GoMap.empty).find? di.diff.commit.id).isSome
    · rw [if_pos hdup] at h; exact absurd h (by simp)
    · rw [if_neg hdup] at h
      have hm' : m' = m.set di.diff.commit.repo
          (sm.set di.diff.shard
            (((sm.find? di.diff.shard).getD GoMap.empty).set (insKey di bk) di)) := by
        exact (Except.ok.inj h).symm
      subst hm'
      unfold dmFind
      by_cases h1 : r = di.diff.commit.repo
      · subst h1
        by_cases h2 : sh = di.diff.shard
        · subst h2
          by_cases h3 : k = insKey di bk
          · subst h3
            simp [GoMap.find?_set]
          · have h3' : ¬insKey di bk = k := fun hx => h3 hx.symm
            simp [GoMap.find?_set, h3, h3', hr]
        · have h2' : ¬di.diff.shard = sh := fun hx => h2 hx.symm
          simp [GoMap.find?_set, h2, h2', hr]
      · have h1' : ¬di.diff.commit.repo = r := fun hx => h1 hx.symm
        simp [GoMap.find?_set, h1, h1']

theorem GoMap.find?_empty {κ α : Type} [DecidableEq κ] (k : κ) :
    (GoMap.empty : GoMap κ α).find? k = none := rfl

theorem dmPop_fst (m : DMap) (df : Diff) :
    (dmPop m df).1 = dmFind m df.commit.repo df.shard df.commit.id := by
  unfold dmPop dmFind
  cases hr : m.find? df.commit.repo with
  | none => simp [GoMap.find?_empty]
  | some sm =>
    dsimp only [Option.getD]
    cases h2 : sm.find? df.shard with
    | none => simp [GoMap.find?_empty]
    | some cm => simp

theorem dmFind_dmPop (m : DMap) (df : Diff) (r : String) (sh : Nat) (k : String) :
    dmFind (dmPop m df).2 r sh k =
      if r = df.commit.repo ∧ sh = df.shard ∧ k = df.commit.id then none
      else dmFind m r sh k := by
  unfold dmPop
  cases hr : m.find? df.commit.repo with
  | none =>
    dsimp only
    by_cases hx : r = df.commit.repo ∧ sh = df.shard ∧ k = df.commit.id
    · rw [if_pos hx]
      unfold dmFind
      rw [hx.1, hr]
      simp [GoMap.find?_empty]
    · rw [if_neg hx]
  | some sm =>
    dsimp only
    cases h2 : sm.find? df.shard with
    | none =>
      dsimp only
      by_cases hx : r = df.commit.repo ∧ sh = df.shard ∧ k = df.commit.id
      · rw [if_pos hx]
        unfold dmFind
        rw [hx.1, hr, hx.2.1]
        simp [h2, GoMap.find?_empty]
      · rw [if_neg hx]
    | some cm =>
      dsimp only
      unfold dmFind
      by_cases hx1 : r = df.commit.repo
      · subst hx1
        by_cases hx2 : sh = df.shard
        · subst hx2
          by_cases hx3 : k = df.commit.id
          · subst hx3
            simp [GoMap.find?_set, GoMap.find?_del, hr, h2]
          · have hx3' : ¬df.commit.id = k := fun hx => hx3 hx.symm
            simp [GoMap.find?_set, GoMap.find?_del, hx3, hx3', hr, h2]
        · have hx2' : ¬df.shard = sh := fun hx => hx2 hx.symm
          simp [GoMap.find?_set, hx2, hx2', hr]
      · have hx1' : ¬df.commit.repo = r := fun hx => hx1 hx.symm
        simp [GoMap.find?_set, hx1, hx1']

theorem dmFind_setEmpty (m : DMap) (repo r : String) (sh : Nat) (k : String) :
    dmFind (m.set repo GoMap.empty) r sh k =
      if repo = r then none else dmFind m r sh k := by
  unfold dmFind
  rw [GoMap.find?_set]
  by_cases h : repo = r
  · simp [h, GoMap.find?_empty]
  · rw [if_neg h, if_neg h]

theorem dmFind_updKey (m : DMap) (repo : String) (sh : Nat) (id : String)
    (f : DiffInfo → DiffInfo) (r : String) (sh' : Nat) (k : String) :
    dmFind (m.update repo (fun sm => sm.update sh (fun cm => cm.update id f))) r sh' k =
      if r = repo ∧ sh' = sh ∧ k = id then (dmFind m r sh' k).map f
      else dmFind m r sh' k := by
  unfold dmFind
  by_cases h1 : r = repo
  · subst h1
    by_cases h2 : sh' = sh
    · subst h2
      by_cases h3 : k = id
      · subst h3
        cases hr : m.find? r with
        | none => simp [GoMap.find?_update, GoMap.find?_empty, hr]
        | some sm =>
          cases hs : sm.find? sh' with
          | none => simp [GoMap.find?_update, GoMap.find?_empty, hr, hs]
          | some cm => simp [GoMap.find?_update, GoMap.find?_empty, hr, hs]
      · have h3' : ¬id = k := fun hx => h3 hx.symm
        cases hr : m.find? r with
        | none => simp [GoMap.find?_update, GoMap.find?_empty, hr, h3]
        | some sm =>
          cases hs : sm.find? sh' with
          | none => simp [GoMap.find?_update, GoMap.find?_empty, hr, hs, h3]
          | some cm => simp [GoMap.find?_update, hr, hs, h3, h3']
    · have h2' : ¬sh = sh' := fun hx => h2 hx.symm
      cases hr : m.find? r with
      | none => simp [GoMap.find?_update, GoMap.find?_empty, hr, h2]
      | some sm => simp [GoMap.find?_update, hr, h2, h2']
  · have h1' : ¬repo = r := fun hx => h1 hx.symm
    simp [GoMap.find?_update, h1, h1']

theorem dmFind_updVals (m : DMap) (repo : String) (sh : Nat)
    (f : DiffInfo → DiffInfo) (r : String) (sh' : Nat) (k : String) :
    dmFind (m.update repo (fun sm => sm.update sh (fun cm => cm.mapVals f))) r sh' k =
      if r = repo ∧ sh' = sh then (dmFind m r sh' k).map f
      else dmFind m r sh' k := by
  unfold dmFind
  by_cases h1 : r = repo
  · subst h1
    by_cases h2 : sh' = sh
    · subst h2
      cases hr : m.find? r with
      | none => simp [GoMap.find?_update, GoMap.find?_empty, hr]
      | some sm =>
        cases hs : sm.find? sh' with
        | none => simp [GoMap.find?_update, GoMap.find?_empty, hr, hs]
        | some cm => simp [GoMap.find?_update, GoMap.find?_mapVals, hr, hs]
    · have h2' : ¬sh = sh' := fun hx => h2 hx.symm
      cases hr : m.find? r with
      | none => simp [GoMap.find?_update, GoMap.find?_empty, hr, h2]
      | some sm => simp [GoMap.find?_update, hr, h2, h2']
  · have h1' : ¬repo = r := fun hx => h1 hx.symm
    simp [GoMap.find?_update, h1, h1']


/-- C9: for every driver state and every commit, `InspectCommit` with an
empty shard set returns the "commit …/… not found" error: the per-shard
loop produces no CommitInfo, so the reduced list is empty and the final
length check fails. -/
theorem inspectCommit_empty_shards (s : DriverState) (c : Commit) :
    inspectCommit s c [] = .error s!"commit {c.repo}/{c.id} not found" := rfl

/-- C6 counterexample: `diffMap.insert` with `useBranchKey` does NOT fail
when the insertion key (the branch name `"b"`) already exists — it checks
only the commit-id key (`"c"`, absent here) and silently overwrites the
existing `"b"` binding, contradicting "fails exactly when … the insertion
key already exists". -/
theorem dmInsert_branch_overwrites :
    dmFind mC6 "r" 0 (insKey dC6 true) = some tipC6 ∧
    dmInsert mC6 dC6 true = .ok [("r", [(0, [("b", dC6)])])] := ⟨rfl, rfl⟩

/-- C6 amended: `diffMap.insert` fails exactly when the repo layer is
absent or the diff's COMMIT-ID key already exists in the (repo, shard) map
— regardless of `useBranchKey`; on success it binds the insertion key
(commit id, or branch name when `useBranchKey`), replacing any existing
binding of that key, and leaves every other binding unchanged. -/
theorem dmInsert_spec (m : DMap) (di : DiffInfo) (bk : Bool) :
    (exOk (dmInsert m di bk) = false ↔
      (m.find? di.diff.commit.repo = none ∨
        (dmFind m di.diff.commit.repo di.diff.shard di.diff.commit.id).isSome = true)) ∧
    (∀ m', dmInsert m di bk = .ok m' →
      ∀ r sh k, dmFind m' r sh k =
        if r = di.diff.commit.repo ∧ sh = di.diff.shard ∧ k = insKey di bk then some di
        else dmFind m r sh k) := by
  constructor
  · have h := dmInsert_ok_iff m di bk
    constructor
    · intro hf
      by_contra hc
      push_neg at hc
      have h1 : (m.find? di.diff.commit.repo).isSome = true := by
        cases hx : m.find? di.diff.commit.repo with
        | none => exact absurd hx hc.1
        | some v => rfl
      have h2 : dmFind m di.diff.commit.repo di.diff.shard di.diff.commit.id = none := by
        cases hx : dmFind m di.diff.commit.repo di.diff.shard di.diff.commit.id with
        | none => rfl
        | some v => rw [hx] at hc; simp at hc
      have := h.mpr ⟨h1, h2⟩
      rw [hf] at this
      exact Bool.false_ne_true this
    · intro hc
      cases hb : exOk (dmInsert m di bk) with
      | false => rfl
      | true =>
        obtain ⟨h1, h2⟩ := h.mp hb
        rcases hc with hc | hc
        · rw [hc] at h1; simp at h1
        · rw [h2] at hc; simp at hc
  · intro m' hm' r sh k
    exact dmFind_dmInsert m m' di bk hm' r sh k

/-- Witness for `dmInsert_spec` at the concrete C6 scenario. -/
theorem dmInsert_spec_witness :
    dmFind [("r", [(0, [("b", dC6)])])] "r" 0 "b" = some dC6 := by
  have h := (dmInsert_spec mC6 dC6 true).2 [("r", [(0, [("b", dC6)])])] rfl "r" 0 "b"
  rw [if_pos ⟨rfl, rfl, rfl⟩] at h
  exact h

/-- C7: the failing input for the fileReader skip loop.  With block sizes
[5, 2, 5] and offset 8 the source opens block index 1 at residual offset 3,
although that block is only 2 bytes long — the loop keeps comparing the
remaining offset against the size of the block captured before the loop.
The contract (skip whole blocks smaller than the remaining offset) demands
block 2 at residual offset 1. -/
theorem fileReader_stale_skip :
    fileReaderOpen refsC7 0 8 = some (1, 3) ∧
    byteRangeSize ⟨"y", 0, 2⟩ = 2 ∧
    fileReaderSkipSpec refsC7 0 8 = (2, 1) := by
  refine ⟨rfl, by decide, by decide⟩


/-- C8: under the precondition that every commit reached by following
`ParentCommit` links has a diff in finished for the shard (expressed as
`finishedChain` being defined), `lastRef` does not hit its unchecked nil
dereference and returns exactly: the first commit of the chain whose
finished diff's appends contain the cleaned path, or nil when there is
none. -/
theorem lastRef_spec (s : DriverState) (sh : Nat) (p : Path) :
    ∀ (fuel : Nat) (c : Option Commit) (l : List Commit),
      finishedChain s sh fuel c = some l →
      lastRef s sh p fuel c = some (l.find? (hasCleanAppend s sh p)) := by
  intro fuel
  induction fuel with
  | zero =>
    intro c l h
    cases c with
    | none =>
      unfold finishedChain at h
      cases h
      rfl
    | some c0 => exact absurd h (by unfold finishedChain; simp)
  | succ fuel ih =>
    intro c l h
    cases c with
    | none =>
      unfold finishedChain at h
      cases h
      rfl
    | some c0 =>
      unfold finishedChain at h
      cases hd : dmGet s.finished ⟨c0, sh⟩ with
      | none => rw [hd] at h; exact absurd h (by simp)
      | some di =>
        rw [hd] at h
        dsimp only at h
        cases hc : finishedChain s sh fuel di.parentCommit with
        | none => rw [hc] at h; exact absurd h (by simp)
        | some l' =>
          rw [hc] at h
          dsimp only at h
          have hl : l = c0 :: l' := (Option.some.inj h).symm
          subst hl
          unfold lastRef
          rw [hd]
          dsimp only
          by_cases hap : (((di.appends.getD []).find? (clean p))).isSome
          · rw [if_pos hap]
            rw [List.find?_cons_of_pos _ (by unfold hasCleanAppend; rw [hd]; exact hap)]
          · rw [if_neg hap]
            rw [List.find?_cons_of_neg _ (by unfold hasCleanAppend; rw [hd]; simpa using hap)]
            exact ih di.parentCommit l' hc

/-- Witness for `lastRef_spec`: in the S3 state the chain from c3 is
[c3, c2, c1] and the nearest commit with an append for "a" is c3. -/
theorem lastRef_spec_witness :
    lastRef stS3 0 ['a'] 3 (some ⟨"r", "c3"⟩) = some (some ⟨"r", "c3"⟩) := by
  have h := lastRef_spec stS3 0 ['a'] 3 (some ⟨"r", "c3"⟩)
    [⟨"r", "c3"⟩, ⟨"r", "c2"⟩, ⟨"r", "c1"⟩] (by decide)
  rw [h]
  decide


theorem two64_pos : 0 < two64 := Nat.pos_pow_of_pos 64 (by norm_num)

theorem add64_lt (a b : Nat) : add64 a b < two64 := Nat.mod_lt _ two64_pos

theorem foldl_add64_eq (l : List BlockRef) (a : Nat) (ha : a < two64) :
    l.foldl (fun x r => add64 x (byteRangeSize r)) a =
      (a + (l.map byteRangeSize).sum) % two64 := by
  induction l generalizing a with
  | nil => simpa using (Nat.mod_eq_of_lt ha).symm
  | cons r rest ih =>
    simp only [List.foldl, List.map, List.sum_cons]
    rw [ih (add64 a (byteRangeSize r)) (add64_lt _ _)]
    unfold add64
    rw [Nat.mod_add_mod]
    ring_nf

theorem inspectFileLoop_size (s : DriverState) (bh : String → Nat) (fh : Path → Nat)
    (fs : Option Shard) (sh : Nat) (file : File) (fromC : Option Commit) :
    ∀ (fuel : Nat) (c : Option Commit) (fi : FileInfo) (refs : List BlockRef)
      (seen : GoMap Path Bool) (fi' : FileInfo) (refs' : List BlockRef),
      inspectFileLoop s bh fh fs sh file fromC fuel c fi refs seen = some (.ok (fi', refs')) →
      fi.sizeBytes = ((refs.map byteRangeSize).sum) % two64 →
      fi'.sizeBytes = ((refs'.map byteRangeSize).sum) % two64 := by
  intro fuel
  induction fuel with
  | zero => intro c fi refs seen fi' refs' h _; exact absurd h (by unfold inspectFileLoop; simp)
  | succ fuel ih =>
    intro c fi refs seen fi' refs' h hinv
    cases c with
    | none =>
      unfold inspectFileLoop inspectFinish at h
      split at h
      · exact absurd h (by simp)
      · have hp := Except.ok.inj (Option.some.inj h)
        have h1 : fi = fi' := congrArg Prod.fst hp
        have h2 : refs = refs' := congrArg Prod.snd hp
        rw [← h1, ← h2]
        exact hinv
    | some c0 =>
      unfold inspectFileLoop at h
      by_cases hfrom : fromC.any (fun f => f.id = c0.id)
      · rw [if_pos hfrom] at h
        unfold inspectFinish at h
        split at h
        · exact absurd h (by simp)
        · have hp := Except.ok.inj (Option.some.inj h)
          have h1 : fi = fi' := congrArg Prod.fst hp
          have h2 : refs = refs' := congrArg Prod.snd hp
          rw [← h1, ← h2]
          exact hinv
      · rw [if_neg hfrom] at h
        cases hgd : getDiffInfo s ⟨c0, sh⟩ with
        | none => rw [hgd] at h; exact absurd h (by simp)
        | some dir0 =>
          rw [hgd] at h
          obtain ⟨di, rd⟩ := dir0
          dsimp only at h
          cases hap : (di.appends.getD []).find? (clean file.path) with
          | none =>
            rw [hap] at h
            exact ih _ _ _ _ _ _ h hinv
          | some ap =>
            rw [hap] at h
            dsimp only at h
            by_cases hbr : 0 < ap.blockRefs.length
            · rw [if_pos hbr] at h
              by_cases hdir : fi.fileType = FileType.directory
              · rw [if_pos hdir] at h; exact absurd h (by simp)
              · rw [if_neg hdir] at h
                by_cases hshard : fi.fileType = FileType.nofile ∧
                    ¬fileInShard fh fs file = true
                · rw [if_pos hshard] at h; exact absurd h (by simp)
                · rw [if_neg hshard] at h
                  refine ih _ _ _ _ _ _ h ?_
                  have harith :
                      ((filterBlockRefs bh fs ap.blockRefs).foldl
                        (fun a r => add64 a (byteRangeSize r)) fi.sizeBytes) =
                      ((((filterBlockRefs bh fs ap.blockRefs) ++ refs).map
                        byteRangeSize).sum) % two64 := by
                    rw [foldl_add64_eq _ _ (by rw [hinv]; exact Nat.mod_lt _ two64_pos)]
                    rw [hinv, Nat.mod_add_mod, List.map_append, List.sum_append,
                      Nat.add_comm]
                  split
                  · exact harith
                  · exact harith
            · rw [if_neg hbr] at h
              by_cases hch : 0 < ap.children.length
              · rw [if_pos hch] at h
                by_cases hreg : fi.fileType = FileType.regular
                · rw [if_pos hreg] at h; exact absurd h (by simp)
                · rw [if_neg hreg] at h
                  refine ih _ _ _ _ _ _ h ?_
                  split
                  · exact hinv
                  · exact hinv
              · rw [if_neg hch] at h
                refine ih _ _ _ _ _ _ h ?_
                split
                · exact hinv
                · exact hinv

/-- C3: whenever `inspectFile` succeeds, the returned `SizeBytes` is the
(mod 2^64) sum of the byte-range lengths (upper − lower) of the returned
filtered block refs; and on the spec's three-commit S3 state the walk
visits c3 then jumps to c1 via `LastRef`, prepending refs so that c1's
block ref precedes c3's in the result, with SizeBytes 6. -/
theorem inspectFile_size_accum :
    (∀ (s : DriverState) (bh : String → Nat) (fh : Path → Nat) (file : File)
      (fs : Option Shard) (sh : Nat) (fromC : Option Commit) (fuel : Nat)
      (fi : FileInfo) (refs : List BlockRef),
      inspectFile s bh fh file fs sh fromC fuel = some (.ok (fi, refs)) →
      fi.sizeBytes = ((refs.map byteRangeSize).sum) % two64) ∧
    inspectFile stS3Slash (fun _ => 0) (fun _ => 0) ⟨⟨"r", "c3"⟩, ['/', 'a']⟩ none 0 none 10 =
      some (.ok (fiS3Slash, [blockRefA, blockRefB])) ∧
    fiS3Slash.sizeBytes = 6 := by
  refine ⟨?_, by decide, rfl⟩
  intro s bh fh file fs sh fromC fuel fi refs h
  exact inspectFileLoop_size s bh fh fs sh _ fromC fuel _ _ _ _ fi refs h (by simp)

/-- Witness for `inspectFile_size_accum` at the S3 input. -/
theorem inspectFile_size_accum_witness :
    fiS3Slash.sizeBytes = (([blockRefA, blockRefB].map byteRangeSize).sum) % two64 :=
  inspectFile_size_accum.1 stS3Slash (fun _ => 0) (fun _ => 0)
    ⟨⟨"r", "c3"⟩, ['/', 'a']⟩ none 0 none 10 fiS3Slash [blockRefA, blockRefB]
    inspectFile_size_accum.2.1


theorem keyOkCM_find (repo : String) (sh : Nat) (cm : GoMap String DiffInfo)
    (h : keyOkCM repo sh cm = true) (id : String) (di : DiffInfo)
    (hf : cm.find? id = some di) : di.diff = ⟨⟨repo, id⟩, sh⟩ := by
  induction cm with
  | nil => exact absurd hf (by simp [GoMap.find?])
  | cons kv rest ih =>
    obtain ⟨k0, v0⟩ := kv
    unfold keyOkCM at h
    simp only [Bool.and_eq_true, decide_eq_true_eq] at h
    unfold GoMap.find? at hf
    by_cases hk : k0 = id
    · rw [if_pos hk] at hf
      cases hf
      rw [← hk]
      exact h.1
    · rw [if_neg hk] at hf
      exact ih h.2 hf

theorem keyOkSM_find (repo : String) (sm : GoMap Nat (GoMap String DiffInfo))
    (h : keyOkSM repo sm = true) (sh : Nat) (cm : GoMap String DiffInfo)
    (hf : sm.find? sh = some cm) : keyOkCM repo sh cm = true := by
  induction sm with
  | nil => exact absurd hf (by simp [GoMap.find?])
  | cons kv rest ih =>
    obtain ⟨k0, v0⟩ := kv
    unfold keyOkSM at h
    simp only [Bool.and_eq_true] at h
    unfold GoMap.find? at hf
    by_cases hk : k0 = sh
    · rw [if_pos hk] at hf
      cases hf
      rw [← hk]
      exact h.1
    · rw [if_neg hk] at hf
      exact ih h.2 hf

theorem keyOkDM_sm (m : DMap) (h : keyOkDM m = true) (repo : String)
    (sm : GoMap Nat (GoMap String DiffInfo)) (hf : m.find? repo = some sm) :
    keyOkSM repo sm = true := by
  induction m with
  | nil => exact absurd hf (by simp [GoMap.find?])
  | cons kv rest ih =>
    obtain ⟨k0, v0⟩ := kv
    unfold keyOkDM at h
    simp only [Bool.and_eq_true] at h
    unfold GoMap.find? at hf
    by_cases hk : k0 = repo
    · rw [if_pos hk] at hf
      cases hf
      rw [← hk]
      exact h.1
    · rw [if_neg hk] at hf
      exact ih h.2 hf

/-- Key consistency transferred to flattened lookups. -/
theorem keyOkDM_spec (m : DMap) (h : keyOkDM m = true) (repo : String) (sh : Nat)
    (id : String) (di : DiffInfo) (hf : dmFind m repo sh id = some di) :
    di.diff = ⟨⟨repo, id⟩, sh⟩ := by
  unfold dmFind at hf
  cases hr : m.find? repo with
  | none => rw [hr] at hf; exact absurd hf (by simp [GoMap.find?_empty])
  | some sm =>
    rw [hr] at hf
    simp only [Option.getD_some] at hf
    cases hs : sm.find? sh with
    | none => rw [hs] at hf; exact absurd hf (by simp [GoMap.find?_empty])
    | some cm =>
      rw [hs] at hf
      simp only [Option.getD_some] at hf
      exact keyOkCM_find repo sh cm
        (keyOkSM_find repo sm (keyOkDM_sm m h repo sm hr) sh cm hs) id di hf

theorem brOkCM_find (repo : String) (sh : Nat) (cm : GoMap String DiffInfo)
    (h : brOkCM repo sh cm = true) (id : String) (di : DiffInfo)
    (hf : cm.find? id = some di) :
    di.diff.commit.repo = repo ∧ di.diff.shard = sh := by
  induction cm with
  | nil => exact absurd hf (by simp [GoMap.find?])
  | cons kv rest ih =>
    obtain ⟨k0, v0⟩ := kv
    unfold brOkCM at h
    simp only [Bool.and_eq_true, decide_eq_true_eq] at h
    unfold GoMap.find? at hf
    by_cases hk : k0 = id
    · rw [if_pos hk] at hf
      cases hf
      exact h.1
    · rw [if_neg hk] at hf
      exact ih h.2 hf

theorem brOkSM_find (repo : String) (sm : GoMap Nat (GoMap String DiffInfo))
    (h : brOkSM repo sm = true) (sh : Nat) (cm : GoMap String DiffInfo)
    (hf : sm.find? sh = some cm) : brOkCM repo sh cm = true := by
  induction sm with
  | nil => exact absurd hf (by simp [GoMap.find?])
  | cons kv rest ih =>
    obtain ⟨k0, v0⟩ := kv
    unfold brOkSM at h
    simp only [Bool.and_eq_true] at h
    unfold GoMap.find? at hf
    by_cases hk : k0 = sh
    · rw [if_pos hk] at hf
      cases hf
      rw [← hk]
      exact h.1
    · rw [if_neg hk] at hf
      exact ih h.2 hf

theorem brOkDM_sm (m : DMap) (h : brOkDM m = true) (repo : String)
    (sm : GoMap Nat (GoMap String DiffInfo)) (hf : m.find? repo = some sm) :
    brOkSM repo sm = true := by
  induction m with
  | nil => exact absurd hf (by simp [GoMap.find?])
  | cons kv rest ih =>
    obtain ⟨k0, v0⟩ := kv
    unfold brOkDM at h
    simp only [Bool.and_eq_true] at h
    unfold GoMap.find? at hf
    by_cases hk : k0 = repo
    · rw [if_pos hk] at hf
      cases hf
      rw [← hk]
      exact h.1
    · rw [if_neg hk] at hf
      exact ih h.2 hf

/-- Branch-layer consistency transferred to flattened lookups. -/
theorem brOkDM_spec (m : DMap) (h : brOkDM m = true) (repo : String) (sh : Nat)
    (id : String) (di : DiffInfo) (hf : dmFind m repo sh id = some di) :
    di.diff.commit.repo = repo ∧ di.diff.shard = sh := by
  unfold dmFind at hf
  cases hr : m.find? repo with
  | none => rw [hr] at hf; exact absurd hf (by simp [GoMap.find?_empty])
  | some sm =>
    rw [hr] at hf
    simp only [Option.getD_some] at hf
    cases hs : sm.find? sh with
    | none => rw [hs] at hf; exact absurd hf (by simp [GoMap.find?_empty])
    | some cm =>
      rw [hs] at hf
      simp only [Option.getD_some] at hf
      exact brOkCM_find repo sh cm
        (brOkSM_find repo sm (brOkDM_sm m h repo sm hr) sh cm hs) id di hf

theorem updateShared_started (s : DriverState) (repo : String) (sh : Nat) (id : String)
    (f : DiffInfo → DiffInfo) (r : String) (sh' : Nat) (k : String) :
    dmFind (updateShared s repo sh id f).started r sh' k =
      if r = repo ∧ sh' = sh ∧ k = id then (dmFind s.started r sh' k).map f
      else dmFind s.started r sh' k :=
  dmFind_updKey s.started repo sh id f r sh' k

theorem updateShared_finished (s : DriverState) (repo : String) (sh : Nat) (id : String)
    (f : DiffInfo → DiffInfo) (r : String) (sh' : Nat) (k : String) :
    dmFind (updateShared s repo sh id f).finished r sh' k =
      if r = repo ∧ sh' = sh ∧ k = id then (dmFind s.finished r sh' k).map f
      else dmFind s.finished r sh' k :=
  dmFind_updKey s.finished repo sh id f r sh' k

theorem updateShared_leaves (s : DriverState) (repo : String) (sh : Nat) (id : String)
    (f : DiffInfo → DiffInfo) (r : String) (sh' : Nat) (k : String) :
    dmFind (updateShared s repo sh id f).leaves r sh' k =
      if r = repo ∧ sh' = sh ∧ k = id then (dmFind s.leaves r sh' k).map f
      else dmFind s.leaves r sh' k :=
  dmFind_updKey s.leaves repo sh id f r sh' k

theorem updateShared_branches (s : DriverState) (repo : String) (sh : Nat) (id : String)
    (f : DiffInfo → DiffInfo) (r : String) (sh' : Nat) (k : String) :
    dmFind (updateShared s repo sh id f).branches r sh' k =
      if r = repo ∧ sh' = sh then
        (dmFind s.branches r sh' k).map (fun di => if di.diff.commit.id = id then f di else di)
      else dmFind s.branches r sh' k :=
  dmFind_updVals s.branches repo sh _ r sh' k

/-- Canonicalization is unchanged by an in-place `DiffInfo` mutation that
preserves the commit identity (as the `Finished` stamp and `PutFile`'s
append mutation do), provided the branches view is well-formed. -/
theorem canonicalCommit_updateShared (s : DriverState) (repo : String) (sh : Nat)
    (id : String) (f : DiffInfo → DiffInfo)
    (hbr : brWFp s.branches)
    (hf : ∀ di, di.diff.commit = ⟨repo, id⟩ → (f di).diff.commit = ⟨repo, id⟩)
    (c : Commit) (sh' : Nat) :
    canonicalCommit (updateShared s repo sh id f) c sh' = canonicalCommit s c sh' := by
  unfold canonicalCommit
  rw [dmGet_eq, dmGet_eq]
  simp only
  rw [updateShared_branches]
  by_cases hc : c.repo = repo ∧ sh' = sh
  · rw [if_pos hc]
    cases hx : dmFind s.branches c.repo sh' c.id with
    | none => rfl
    | some v =>
      dsimp only [Option.map]
      by_cases hid : v.diff.commit.id = id
      · rw [if_pos hid]
        have hwf := hbr c.repo sh' c.id v hx
        have hcommit : v.diff.commit = ⟨repo, id⟩ := by
          have h1 : v.diff.commit.repo = repo := hwf.1.trans hc.1
          calc v.diff.commit = ⟨v.diff.commit.repo, v.diff.commit.id⟩ := rfl
            _ = ⟨repo, id⟩ := by rw [h1, hid]
        rw [hf v hcommit, hcommit]
      · rw [if_neg hid]
  · rw [if_neg hc]


theorem isSome_map {α β : Type} (f : α → β) (x : Option α) :
    (x.map f).isSome = x.isSome := by
  cases x <;> rfl

theorem wfB_wfP (s : DriverState) (h : wfB s = true) : wfP s := by
  unfold wfB at h
  simp only [Bool.and_eq_true] at h
  refine ⟨?_, ?_, ?_⟩
  · exact fun repo sh id di hf => keyOkDM_spec s.started h.1.1 repo sh id di hf
  · exact fun repo sh id di hf => keyOkDM_spec s.finished h.1.2 repo sh id di hf
  · exact fun repo sh id di hf => brOkDM_spec s.branches h.2 repo sh id di hf

theorem finishCanonPairs_congr (s1 s2 : DriverState)
    (h : ∀ c sh, canonicalCommit s2 c sh = canonicalCommit s1 c sh) :
    ∀ (l : List Nat) (c : Commit), finishCanonPairs s2 c l = finishCanonPairs s1 c l := by
  intro l
  induction l with
  | nil => intro c; rfl
  | cons sh rest ih =>
    intro c
    unfold finishCanonPairs
    rw [h c sh, ih (canonicalCommit s1 c sh)]

theorem finishCanonPairs_shard_mem (s : DriverState) :
    ∀ (l : List Nat) (c : Commit) (pr : Commit × Nat),
      pr ∈ finishCanonPairs s c l → pr.2 ∈ l := by
  intro l
  induction l with
  | nil => intro c pr hpr; exact absurd hpr (by simp [finishCanonPairs])
  | cons sh rest ih =>
    intro c pr hpr
    unfold finishCanonPairs at hpr
    rcases List.mem_cons.mp hpr with hh | ht
    · rw [hh]
      exact List.mem_cons_self _ _
    · exact List.mem_cons_of_mem _ (ih _ pr ht)

theorem finishLoop_main (ts : Option Nat) :
    ∀ (shards : List Nat) (s : DriverState) (c : Commit) (s' : DriverState),
      wfP s → shards.Nodup → finishCommitLoop ts s c shards = .ok s' →
      ((∀ r sh k, (dmFind s'.leaves r sh k).isSome = (dmFind s.leaves r sh k).isSome) ∧
       (∀ r sh k, sh ∉ shards →
         dmFind s'.started r sh k = dmFind s.started r sh k ∧
         dmFind s'.finished r sh k = dmFind s.finished r sh k) ∧
       (∀ pr ∈ finishCanonPairs s c shards, ∃ di,
         dmFind s.started pr.1.repo pr.2 pr.1.id = some di ∧
         dmFind s'.started pr.1.repo pr.2 pr.1.id = none ∧
         dmFind s'.finished pr.1.repo pr.2 pr.1.id = some { di with finished := ts })) := by
  intro shards
  induction shards with
  | nil =>
    intro s c s' _ _ h
    unfold finishCommitLoop at h
    have hs : s = s' := Except.ok.inj h
    subst hs
    exact ⟨fun r sh k => rfl, fun r sh k _ => ⟨rfl, rfl⟩,
      fun pr hpr => absurd hpr (by simp [finishCanonPairs])⟩
  | cons sh0 rest ih =>
    intro s c s' hwf hnd h
    have hnd' : rest.Nodup := (List.nodup_cons.mp hnd).2
    have hsh0 : sh0 ∉ rest := (List.nodup_cons.mp hnd).1
    unfold finishCommitLoop at h
    set cp := canonicalCommit s c sh0 with hcp
    cases hpop : (dmPop s.started ⟨cp, sh0⟩).1 with
    | none => rw [hpop] at h; exact absurd h (by simp)
    | some di =>
      rw [hpop] at h
      dsimp only at h
      cases hins : dmInsert s.finished { di with finished := ts } false with
      | error e => rw [hins] at h; exact absurd h (by simp)
      | ok fin1 =>
        rw [hins] at h
        dsimp only at h
        have hdiF : dmFind s.started cp.repo sh0 cp.id = some di := by
          have h1 := dmPop_fst s.started ⟨cp, sh0⟩
          rw [hpop] at h1
          exact h1.symm
        have hdiD : di.diff = ⟨⟨cp.repo, cp.id⟩, sh0⟩ := hwf.1 _ _ _ _ hdiF
        have hdiD' : ({ di with finished := ts } : DiffInfo).diff = ⟨⟨cp.repo, cp.id⟩, sh0⟩ :=
          hdiD
        set s1 : DriverState :=
          { s with started := (dmPop s.started ⟨cp, sh0⟩).2, finished := fin1 } with hs1
        set s2 : DriverState :=
          updateShared s1 cp.repo sh0 cp.id (fun _ => { di with finished := ts }) with hs2
        have hS2started : ∀ r sh k, dmFind s2.started r sh k =
            if r = cp.repo ∧ sh = sh0 ∧ k = cp.id then none
            else dmFind s.started r sh k := by
          intro r sh k
          rw [hs2, updateShared_started]
          have hps := dmFind_dmPop s.started ⟨cp, sh0⟩ r sh k
          by_cases hc : r = cp.repo ∧ sh = sh0 ∧ k = cp.id
          · rw [if_pos hc, if_pos hc]
            have : dmFind s1.started r sh k = none := by
              rw [hs1]
              dsimp only
              rw [hps, if_pos hc]
            rw [this]
            rfl
          · rw [if_neg hc, if_neg hc]
            rw [hs1]
            dsimp only
            rw [hps, if_neg hc]
        have hS2finished : ∀ r sh k, dmFind s2.finished r sh k =
            if r = cp.repo ∧ sh = sh0 ∧ k = cp.id then some { di with finished := ts }
            else dmFind s.finished r sh k := by
          intro r sh k
          rw [hs2, updateShared_finished]
          have hf1 := dmFind_dmInsert s.finished fin1 { di with finished := ts } false hins r sh k
          dsimp only [insKey] at hf1
          rw [hdiD'] at hf1
          dsimp only at hf1
          have hkey : (if false = true then di.branch else cp.id) = cp.id := rfl
          rw [hkey] at hf1
          rw [← hdiD] at hf1
          by_cases hc : r = cp.repo ∧ sh = sh0 ∧ k = cp.id
          · rw [if_pos hc]
            have hval : dmFind s1.finished r sh k = some { di with finished := ts } := by
              rw [hs1]
              dsimp only
              rw [hf1, if_pos hc]
            rw [hval, if_pos hc]
            rfl
          · rw [if_neg hc]
            rw [hs1]
            dsimp only
            rw [hf1, if_neg hc]
        have hS2leaves : ∀ r sh k,
            (dmFind s2.leaves r sh k).isSome = (dmFind s.leaves r sh k).isSome := by
          intro r sh k
          rw [hs2, updateShared_leaves]
          split
          · exact isSome_map _ _
          · rfl
        have hcanon : ∀ c2 sh2, canonicalCommit s2 c2 sh2 = canonicalCommit s c2 sh2 := by
          intro c2 sh2
          rw [hs2]
          have hb : brWFp s1.branches := hwf.2.2
          refine (canonicalCommit_updateShared s1 cp.repo sh0 cp.id _ hb ?_ c2 sh2).trans ?_
          · intro di0 _
            rw [hdiD']
          · rfl
        have hwf2 : wfP s2 := by
          refine ⟨?_, ?_, ?_⟩
          · intro r sh k d hd
            rw [hS2started r sh k] at hd
            by_cases hc : r = cp.repo ∧ sh = sh0 ∧ k = cp.id
            · rw [if_pos hc] at hd; exact absurd hd (by simp)
            · rw [if_neg hc] at hd; exact hwf.1 _ _ _ _ hd
          · intro r sh k d hd
            rw [hS2finished r sh k] at hd
            by_cases hc : r = cp.repo ∧ sh = sh0 ∧ k = cp.id
            · rw [if_pos hc] at hd
              have hdd : ({ di with finished := ts } : DiffInfo) = d := Option.some.inj hd
              rw [← hdd, hdiD', hc.1, hc.2.1, hc.2.2]
            · rw [if_neg hc] at hd; exact hwf.2.1 _ _ _ _ hd
          · intro r sh k d hd
            rw [hs2, updateShared_branches] at hd
            by_cases hc : r = cp.repo ∧ sh = sh0
            · rw [if_pos hc] at hd
              cases hx : dmFind s1.branches r sh k with
              | none => rw [hx] at hd; exact absurd hd (by simp)
              | some d0 =>
                rw [hx] at hd
                dsimp only [Option.map] at hd
                have hd0 := hwf.2.2 _ _ _ _ hx
                by_cases hid : d0.diff.commit.id = cp.id
                · rw [if_pos hid] at hd
                  have hdd : ({ di with finished := ts } : DiffInfo) = d := Option.some.inj hd
                  rw [← hdd, hdiD', hc.1, hc.2]
                  exact ⟨rfl, rfl⟩
                · rw [if_neg hid] at hd
                  have hdd : d0 = d := Option.some.inj hd
                  rw [← hdd]
                  exact hd0
            · rw [if_neg hc] at hd
              exact hwf.2.2 _ _ _ _ hd
        obtain ⟨ihL, ihU, ihM⟩ := ih s2 cp s' hwf2 hnd' h
        refine ⟨?_, ?_, ?_⟩
        · intro r sh k
          exact (ihL r sh k).trans (hS2leaves r sh k)
        · intro r sh k hnotin
          have hne : ¬sh = sh0 := fun hx => hnotin (hx ▸ List.mem_cons_self _ _)
          have hnr : sh ∉ rest := fun hx => hnotin (List.mem_cons_of_mem _ hx)
          have hcond : ¬(r = cp.repo ∧ sh = sh0 ∧ k = cp.id) := fun hx => hne hx.2.1
          constructor
          · rw [(ihU r sh k hnr).1, hS2started r sh k, if_neg hcond]
          · rw [(ihU r sh k hnr).2, hS2finished r sh k, if_neg hcond]
        · intro pr hpr
          have hexp : finishCanonPairs s c (sh0 :: rest) =
              (cp, sh0) :: finishCanonPairs s cp rest := rfl
          rw [hexp] at hpr
          rcases List.mem_cons.mp hpr with hh | ht
          · refine ⟨di, ?_, ?_, ?_⟩
            · rw [hh]
              exact hdiF
            · rw [hh]
              rw [(ihU cp.repo sh0 cp.id hsh0).1, hS2started cp.repo sh0 cp.id,
                if_pos ⟨rfl, rfl, rfl⟩]
            · rw [hh]
              rw [(ihU cp.repo sh0 cp.id hsh0).2, hS2finished cp.repo sh0 cp.id,
                if_pos ⟨rfl, rfl, rfl⟩]
          · have ht2 : pr ∈ finishCanonPairs s2 cp rest := by
              rw [finishCanonPairs_congr s s2 hcanon rest cp]
              exact ht
            obtain ⟨d, hd1, hd2, hd3⟩ := ihM pr ht2
            refine ⟨d, ?_, hd2, hd3⟩
            have hmem : pr.2 ∈ rest := finishCanonPairs_shard_mem s2 rest cp pr ht2
            have hne : ¬pr.2 = sh0 := fun hx => hsh0 (hx ▸ hmem)
            rw [hS2started pr.1.repo pr.2 pr.1.id, if_neg (fun hx => hne hx.2.1)] at hd1
            exact hd1


/-- C4: on a well-formed state, a successful `FinishCommit` (1) neither
adds nor removes any leaves entry, and (2) for every shard of the request
the commit handle canonicalized through the branches view had its diff in
started, has been removed from started, and now sits in finished with its
`Finished` field stamped; and a `FinishCommit` whose first shard's
canonical commit is absent from started fails with the
"commit …/… not found" error. -/
theorem finishCommit_spec :
    (∀ (shards : List Nat) (s : DriverState) (c : Commit) (ts : Option Nat)
      (s' : DriverState),
      wfP s → shards.Nodup → finishCommit s c ts shards = .ok s' →
      ((∀ r sh k, (dmFind s'.leaves r sh k).isSome = (dmFind s.leaves r sh k).isSome) ∧
       (∀ pr ∈ finishCanonPairs s c shards, ∃ di,
         dmFind s.started pr.1.repo pr.2 pr.1.id = some di ∧
         dmFind s'.started pr.1.repo pr.2 pr.1.id = none ∧
         dmFind s'.finished pr.1.repo pr.2 pr.1.id = some { di with finished := ts }))) ∧
    (∀ (s : DriverState) (c : Commit) (ts : Option Nat) (sh : Nat) (rest : List Nat),
      dmFind s.started (canonicalCommit s c sh).repo sh (canonicalCommit s c sh).id = none →
      finishCommit s c ts (sh :: rest) =
        .error s!"commit {(canonicalCommit s c sh).repo}/{(canonicalCommit s c sh).id} not found") := by
  constructor
  · intro shards s c ts s' hwf hnd h
    obtain ⟨hL, _, hM⟩ := finishLoop_main ts shards s c s' hwf hnd h
    exact ⟨hL, hM⟩
  · intro s c ts sh rest hnone
    have hp : (dmPop s.started ⟨canonicalCommit s c sh, sh⟩).1 = none := by
      rw [dmPop_fst]
      exact hnone
    unfold finishCommit finishCommitLoop
    rw [hp]

/-- Witness for `finishCommit_spec` on the concrete one-shard state. -/
theorem finishCommit_spec_witness :
    (dmFind stC4'.leaves "r" 0 "c1").isSome = (dmFind stC4.leaves "r" 0 "c1").isSome :=
  ((finishCommit_spec.1 [0] stC4 ⟨"r", "c1"⟩ (some 2) stC4'
      (wfB_wfP stC4 (by decide)) (by decide) (by decide)).1) "r" 0 "c1"


theorem insertLeaf_effects (s : DriverState) (leaf : DiffInfo) (s1 : DriverState)
    (h : insertLeaf s leaf = .ok s1) :
    s1.started = s.started ∧ s1.finished = s.finished ∧ s1.branches = s.branches ∧
    (∀ r sh' k, ¬sh' = leaf.diff.shard → dmFind s1.leaves r sh' k = dmFind s.leaves r sh' k) := by
  unfold insertLeaf at h
  cases hins : dmInsert s.leaves leaf false with
  | error e => rw [hins] at h; exact absurd h (by simp)
  | ok lv1 =>
    rw [hins] at h
    dsimp only at h
    have hlv1 : ∀ r sh' k, ¬sh' = leaf.diff.shard →
        dmFind lv1 r sh' k = dmFind s.leaves r sh' k := by
      intro r sh' k hne
      rw [dmFind_dmInsert s.leaves lv1 leaf false hins r sh' k,
        if_neg (fun hx => hne hx.2.1)]
    cases hpc : leaf.parentCommit with
    | none =>
      rw [hpc] at h
      dsimp only at h
      have hs1 : ({ s with leaves := lv1 } : DriverState) = s1 := Except.ok.inj h
      rw [← hs1]
      exact ⟨rfl, rfl, rfl, hlv1⟩
    | some pc =>
      rw [hpc] at h
      dsimp only at h
      cases hg : dmGet lv1 ⟨pc, leaf.diff.shard⟩ with
      | none =>
        rw [hg] at h
        dsimp only at h
        have hs1 : ({ s with leaves := lv1 } : DriverState) = s1 := Except.ok.inj h
        rw [← hs1]
        exact ⟨rfl, rfl, rfl, hlv1⟩
      | some d0 =>
        rw [hg] at h
        dsimp only at h
        have hs1 : ({ s with leaves := (dmPop lv1 ⟨pc, leaf.diff.shard⟩).2 } : DriverState) = s1 :=
          Except.ok.inj h
        rw [← hs1]
        refine ⟨rfl, rfl, rfl, ?_⟩
        intro r sh' k hne
        show dmFind (dmPop lv1 ⟨pc, leaf.diff.shard⟩).2 r sh' k = dmFind s.leaves r sh' k
        rw [dmFind_dmPop lv1 ⟨pc, leaf.diff.shard⟩ r sh' k,
          if_neg (fun hx => hne hx.2.1)]
        exact hlv1 r sh' k hne


theorem startTail_effects (sA : DriverState) (di2 : DiffInfo) (br : String)
    (s1 : DriverState) (h : startTail sA di2 br = .ok s1) :
    s1.finished = sA.finished ∧
    (∀ r sh' k, ¬sh' = di2.diff.shard →
      dmFind s1.started r sh' k = dmFind sA.started r sh' k ∧
      dmFind s1.branches r sh' k = dmFind sA.branches r sh' k ∧
      dmFind s1.leaves r sh' k = dmFind sA.leaves r sh' k) := by
  unfold startTail at h
  split at h
  · exact absurd h (by simp)
  · rename_i s2 heq2
    have hs2 : s2.started = sA.started ∧ s2.finished = sA.finished ∧
        s2.leaves = sA.leaves ∧
        (∀ r sh' k, ¬sh' = di2.diff.shard →
          dmFind s2.branches r sh' k = dmFind sA.branches r sh' k) := by
      split at heq2
      · split at heq2
        · exact absurd heq2 (by simp)
        · rename_i br1 hins
          have hx : ({ sA with branches := br1 } : DriverState) = s2 := Except.ok.inj heq2
          rw [← hx]
          refine ⟨rfl, rfl, rfl, ?_⟩
          intro r sh' k hne
          show dmFind br1 r sh' k = dmFind sA.branches r sh' k
          rw [dmFind_dmInsert sA.branches br1 di2 true hins r sh' k,
            if_neg (fun hc => hne hc.2.1)]
      · have hx : sA = s2 := Except.ok.inj heq2
        rw [← hx]
        exact ⟨rfl, rfl, rfl, fun r sh' k _ => rfl⟩
    split at h
    · exact absurd h (by simp)
    · rename_i st1 hins2
      obtain ⟨hA, hB, hC, hD⟩ := insertLeaf_effects _ _ _ h
      refine ⟨?_, ?_⟩
      · rw [hB]
        exact hs2.2.1
      · intro r sh' k hne
        refine ⟨?_, ?_, ?_⟩
        · rw [hA]
          show dmFind st1 r sh' k = dmFind sA.started r sh' k
          rw [dmFind_dmInsert s2.started st1 di2 false hins2 r sh' k,
            if_neg (fun hc => hne hc.2.1), hs2.1]
        · rw [hC]
          exact hs2.2.2.2 r sh' k hne
        · rw [hD r sh' k hne]
          show dmFind s2.leaves r sh' k = dmFind sA.leaves r sh' k
          rw [hs2.2.2.1]

theorem startTail_bindings (sA : DriverState) (di2 : DiffInfo) (br : String)
    (s1 : DriverState) (h : startTail sA di2 br = .ok s1) :
    dmFind s1.started di2.diff.commit.repo di2.diff.shard di2.diff.commit.id = some di2 ∧
    (br ≠ "" → di2.branch = br →
      dmFind s1.branches di2.diff.commit.repo di2.diff.shard br = some di2) := by
  unfold startTail at h
  split at h
  · exact absurd h (by simp)
  · rename_i s2 heq2
    split at h
    · exact absurd h (by simp)
    · rename_i st1 hins2
      obtain ⟨hA, _, hC, _⟩ := insertLeaf_effects _ _ _ h
      constructor
      · rw [hA]
        show dmFind st1 di2.diff.commit.repo di2.diff.shard di2.diff.commit.id = some di2
        rw [dmFind_dmInsert s2.started st1 di2 false hins2,
          if_pos ⟨rfl, rfl, show di2.diff.commit.id = insKey di2 false from rfl⟩]
      · intro hbr hdibr
        rw [hC]
        show dmFind s2.branches di2.diff.commit.repo di2.diff.shard br = some di2
        rw [if_pos hbr] at heq2
        split at heq2
        · exact absurd heq2 (by simp)
        · rename_i br1 hins1
          have hx : ({ sA with branches := br1 } : DriverState) = s2 := Except.ok.inj heq2
          rw [← hx]
          show dmFind br1 di2.diff.commit.repo di2.diff.shard br = some di2
          rw [dmFind_dmInsert sA.branches br1 di2 true hins1,
            if_pos ⟨rfl, rfl, show br = insKey di2 true from (by rw [insKey]; simp [hdibr])⟩]

theorem startCommitShard_effects (s : DriverState) (repo cid pid br : String)
    (ts : Option Nat) (sh : Nat) (s1 : DriverState)
    (h : startCommitShard s repo cid pid br ts sh = .ok s1) :
    s1.finished = s.finished ∧
    (∀ r sh' k, ¬sh' = sh →
      dmFind s1.started r sh' k = dmFind s.started r sh' k ∧
      dmFind s1.branches r sh' k = dmFind s.branches r sh' k ∧
      dmFind s1.leaves r sh' k = dmFind s.leaves r sh' k) := by
  unfold startCommitShard at h
  split at h
  · exact absurd h (by simp)
  · rename_i di1 sA heq1
    have hfacts : di1.diff.shard = sh ∧ sA.started = s.started ∧
        sA.finished = s.finished ∧ sA.leaves = s.leaves ∧
        (∀ r sh' k, ¬sh' = sh →
          dmFind sA.branches r sh' k = dmFind s.branches r sh' k) := by
      unfold startBranchResolve at heq1
      split at heq1
      · split at heq1
        · split at heq1
          · exact absurd heq1 (by simp)
          · split at heq1
            · exact absurd heq1 (by simp)
            · have hp := Except.ok.inj heq1
              obtain ⟨hD, hS⟩ := Prod.mk.inj hp
              rw [← hD, ← hS]
              refine ⟨rfl, rfl, rfl, rfl, ?_⟩
              intro r sh' k hne
              show dmFind (dmPop s.branches ⟨⟨repo, br⟩, sh⟩).2 r sh' k =
                dmFind s.branches r sh' k
              rw [dmFind_dmPop s.branches ⟨⟨repo, br⟩, sh⟩ r sh' k,
                if_neg (fun hc => hne hc.2.1)]
        · have hp := Except.ok.inj heq1
          obtain ⟨hD, hS⟩ := Prod.mk.inj hp
          rw [← hD, ← hS]
          exact ⟨rfl, rfl, rfl, rfl, fun r sh' k _ => rfl⟩
      · have hp := Except.ok.inj heq1
        obtain ⟨hD, hS⟩ := Prod.mk.inj hp
        rw [← hD, ← hS]
        exact ⟨rfl, rfl, rfl, rfl, fun r sh' k _ => rfl⟩
    have hsh2 : (if di1.parentCommit = none ∧ pid ≠ "" then
        { di1 with parentCommit := some ⟨repo, pid⟩ } else di1).diff.shard = sh := by
      split
      · exact hfacts.1
      · exact hfacts.1
    obtain ⟨hF, hU⟩ := startTail_effects sA _ br s1 h
    refine ⟨hF.trans hfacts.2.2.1, ?_⟩
    intro r sh' k hne
    have hne2 : ¬sh' = (if di1.parentCommit = none ∧ pid ≠ "" then
        { di1 with parentCommit := some ⟨repo, pid⟩ } else di1).diff.shard := by
      rw [hsh2]
      exact hne
    obtain ⟨u1, u2, u3⟩ := hU r sh' k hne2
    refine ⟨?_, ?_, ?_⟩
    · rw [u1, hfacts.2.1]
    · rw [u2]
      exact hfacts.2.2.2.2 r sh' k hne
    · rw [u3, hfacts.2.2.2.1]


theorem startBranchResolve_tip (s : DriverState) (repo cid pid br : String)
    (ts : Option Nat) (sh : Nat) (tip : DiffInfo)
    (hbr : br ≠ "") (htip : dmGet s.branches ⟨⟨repo, br⟩, sh⟩ = some tip) :
    startBranchResolve s repo cid pid br ts sh =
      (if pid ≠ "" ∧ tip.diff.commit.id ≠ pid then
        .error s!"branch {br} already exists as {tip.diff.commit.id}, can't create with {pid} as parent"
      else if (dmGet s.finished tip.diff).isNone then
        .error s!"branch {br} already has a started (but unfinished) commit {tip.diff.commit.id}"
      else
        .ok (branchStartDiff repo cid br ts sh tip.diff.commit.id,
             { s with branches := (dmPop s.branches ⟨⟨repo, br⟩, sh⟩).2 })) := by
  unfold startBranchResolve
  rw [if_pos hbr, htip]

theorem startCommitShard_branch_fail (s : DriverState) (repo cid pid br : String)
    (ts : Option Nat) (sh : Nat) (tip : DiffInfo)
    (hbr : br ≠ "")
    (htip : dmGet s.branches ⟨⟨repo, br⟩, sh⟩ = some tip) :
    (pid ≠ "" ∧ tip.diff.commit.id ≠ pid →
       startCommitShard s repo cid pid br ts sh =
         .error s!"branch {br} already exists as {tip.diff.commit.id}, can't create with {pid} as parent") ∧
    (¬(pid ≠ "" ∧ tip.diff.commit.id ≠ pid) → (dmGet s.finished tip.diff).isNone = true →
       startCommitShard s repo cid pid br ts sh =
         .error s!"branch {br} already has a started (but unfinished) commit {tip.diff.commit.id}") := by
  have hres : ∀ e : String, startBranchResolve s repo cid pid br ts sh = .error e →
      startCommitShard s repo cid pid br ts sh = .error e := by
    intro e he
    unfold startCommitShard
    rw [he]
  constructor
  · intro h1
    apply hres
    rw [startBranchResolve_tip s repo cid pid br ts sh tip hbr htip, if_pos h1]
  · intro h1 h2
    apply hres
    rw [startBranchResolve_tip s repo cid pid br ts sh tip hbr htip, if_neg h1, if_pos h2]

theorem startCommitShard_branch_facts (s : DriverState) (repo cid pid br : String)
    (ts : Option Nat) (sh : Nat) (tip : DiffInfo) (s1 : DriverState)
    (hbr : br ≠ "")
    (htip : dmGet s.branches ⟨⟨repo, br⟩, sh⟩ = some tip)
    (h : startCommitShard s repo cid pid br ts sh = .ok s1) :
    (pid ≠ "" → tip.diff.commit.id = pid) ∧
    (dmGet s.finished tip.diff).isSome = true ∧
    dmFind s1.branches repo sh br =
      some (branchStartDiff repo cid br ts sh tip.diff.commit.id) := by
  unfold startCommitShard at h
  rw [startBranchResolve_tip s repo cid pid br ts sh tip hbr htip] at h
  by_cases h1 : pid ≠ "" ∧ tip.diff.commit.id ≠ pid
  · rw [if_pos h1] at h
    dsimp only at h
    exact Except.noConfusion h
  · rw [if_neg h1] at h
    by_cases h2 : (dmGet s.finished tip.diff).isNone
    · rw [if_pos h2] at h
      dsimp only at h
      exact Except.noConfusion h
    · rw [if_neg h2] at h
      dsimp only at h
      have hnc : ¬((branchStartDiff repo cid br ts sh tip.diff.commit.id).parentCommit =
          none ∧ pid ≠ "") := by
        intro hc
        simp [branchStartDiff] at hc
      rw [if_neg hnc] at h
      refine ⟨?_, ?_, ?_⟩
      · intro hpid
        by_contra hc
        exact h1 ⟨hpid, hc⟩
      · cases hx : dmGet s.finished tip.diff with
        | none => exact absurd (by rw [hx]; rfl) h2
        | some v => rfl
      · exact (startTail_bindings _ _ br s1 h).2 hbr rfl

theorem startCommitLoop_untouched (repo cid pid br : String) (ts : Option Nat) :
    ∀ shards : List Nat, ∀ s s1 : DriverState,
      startCommitLoop repo cid pid br ts s shards = .ok s1 →
      s1.finished = s.finished ∧
      ∀ r sh k, sh ∉ shards →
        dmFind s1.branches r sh k = dmFind s.branches r sh k := by
  intro shards
  induction shards with
  | nil =>
    intro s s1 h
    have hx : s = s1 := Except.ok.inj h
    rw [← hx]
    exact ⟨rfl, fun r sh k _ => rfl⟩
  | cons sh0 rest ih =>
    intro s s1 h
    unfold startCommitLoop at h
    split at h
    · exact absurd h (by simp)
    · rename_i sm heqS
      obtain ⟨hF1, hB1⟩ := ih sm s1 h
      obtain ⟨hF0, hU0⟩ := startCommitShard_effects s repo cid pid br ts sh0 sm heqS
      constructor
      · rw [hF1, hF0]
      · intro r sh k hmem
        have hne : ¬sh = sh0 := fun hc => hmem (by rw [hc]; exact List.mem_cons_self sh0 rest)
        have hrest : sh ∉ rest := fun hc => hmem (List.mem_cons_of_mem sh0 hc)
        rw [hB1 r sh k hrest, (hU0 r sh k hne).2.1]

theorem startCommitLoop_branch (repo cid pid br : String) (ts : Option Nat)
    (hbr : br ≠ "") :
    ∀ shards : List Nat, ∀ s s1 : DriverState, shards.Nodup →
      startCommitLoop repo cid pid br ts s shards = .ok s1 →
      ∀ sh ∈ shards, ∀ tip, dmGet s.branches ⟨⟨repo, br⟩, sh⟩ = some tip →
        (pid ≠ "" → tip.diff.commit.id = pid) ∧
        (dmGet s.finished tip.diff).isSome = true ∧
        dmFind s1.branches repo sh br =
          some (branchStartDiff repo cid br ts sh tip.diff.commit.id) := by
  intro shards
  induction shards with
  | nil =>
    intro s s1 _ _ sh hmem
    exact absurd hmem (List.not_mem_nil sh)
  | cons sh0 rest ih =>
    intro s s1 hnd h sh hmem tip htip
    have hnd2 : rest.Nodup := (List.nodup_cons.mp hnd).2
    have hsh0 : sh0 ∉ rest := (List.nodup_cons.mp hnd).1
    unfold startCommitLoop at h
    split at h
    · exact absurd h (by simp)
    · rename_i sm heqS
      rcases List.mem_cons.mp hmem with hEq | hmem2
      · rw [hEq] at htip ⊢
        obtain ⟨f1, f2, f3⟩ :=
          startCommitShard_branch_facts s repo cid pid br ts sh0 tip sm hbr htip heqS
        obtain ⟨_, hB⟩ := startCommitLoop_untouched repo cid pid br ts rest sm s1 h
        exact ⟨f1, f2, by rw [hB repo sh0 br hsh0, f3]⟩
      · have hne : ¬sh = sh0 := fun hc => hsh0 (hc ▸ hmem2)
        obtain ⟨hF0, hU0⟩ := startCommitShard_effects s repo cid pid br ts sh0 sm heqS
        have hd1 : dmGet sm.branches ⟨⟨repo, br⟩, sh⟩ = dmFind sm.branches repo sh br :=
          dmGet_eq sm.branches ⟨⟨repo, br⟩, sh⟩
        have hd0 : dmGet s.branches ⟨⟨repo, br⟩, sh⟩ = dmFind s.branches repo sh br :=
          dmGet_eq s.branches ⟨⟨repo, br⟩, sh⟩
        have htip2 : dmGet sm.branches ⟨⟨repo, br⟩, sh⟩ = some tip := by
          rw [hd1, (hU0 repo sh br hne).2.1, ← hd0]
          exact htip
        obtain ⟨g1, g2, g3⟩ := ih sm s1 hnd2 h sh hmem2 tip htip2
        refine ⟨g1, ?_, g3⟩
        rw [← hF0]
        exact g2

/-- C5: StartCommit branch-tip rules.  For the head shard, when a branch
name is given and the branches view holds a prior tip: if `parentID` is
non-empty and differs from the tip's commit id the call fails with the
branch-already-exists error; if the tip's diff is not in finished it fails
with the unfinished-commit error.  On success, for every requested shard
whose branches view held a tip, the parent-id agreement and tip-finished
checks must have passed, the branch entry is replaced with the new diff
`branchStartDiff`, and that diff's ParentCommit is the prior tip's
commit. -/
theorem startCommit_branch_tip (s : DriverState) (repo cid pid br : String)
    (ts : Option Nat) (shards : List Nat)
    (hnd : shards.Nodup) (hbr : br ≠ "") :
    (∀ sh rest tip, shards = sh :: rest →
       dmGet s.branches ⟨⟨repo, br⟩, sh⟩ = some tip →
       (pid ≠ "" ∧ tip.diff.commit.id ≠ pid →
          startCommit s repo cid pid br ts shards =
            .error s!"branch {br} already exists as {tip.diff.commit.id}, can't create with {pid} as parent") ∧
       (¬(pid ≠ "" ∧ tip.diff.commit.id ≠ pid) → (dmGet s.finished tip.diff).isNone = true →
          startCommit s repo cid pid br ts shards =
            .error s!"branch {br} already has a started (but unfinished) commit {tip.diff.commit.id}")) ∧
    (∀ s1, startCommit s repo cid pid br ts shards = .ok s1 →
       ∀ sh ∈ shards, ∀ tip, dmGet s.branches ⟨⟨repo, br⟩, sh⟩ = some tip →
         (pid ≠ "" → tip.diff.commit.id = pid) ∧
         (dmGet s.finished tip.diff).isSome = true ∧
         dmFind s1.branches repo sh br =
           some (branchStartDiff repo cid br ts sh tip.diff.commit.id) ∧
         (branchStartDiff repo cid br ts sh tip.diff.commit.id).parentCommit =
           some ⟨repo, tip.diff.commit.id⟩) := by
  constructor
  · intro sh rest tip hsh htip
    obtain ⟨hf1, hf2⟩ := startCommitShard_branch_fail s repo cid pid br ts sh tip hbr htip
    rw [hsh]
    constructor
    · intro h1
      unfold startCommit startCommitLoop
      rw [hf1 h1]
    · intro h1 h2
      unfold startCommit startCommitLoop
      rw [hf2 h1 h2]
  · intro s1 hok sh hmem tip htip
    have hmain := startCommitLoop_branch repo cid pid br ts hbr shards s s1 hnd hok sh hmem tip htip
    exact ⟨hmain.1, hmain.2.1, hmain.2.2, rfl⟩

theorem startCommit_branch_tip_witness :
    ([0] : List Nat).Nodup ∧ ("b" : String) ≠ "" ∧
    dmFind ((startCommit stC5 "r" "c2" "" "b" (some 9) [0]).toOption.getD
        emptyDriver).branches "r" 0 "b" =
      some (branchStartDiff "r" "c2" "b" (some 9) 0 "t") :=
  ⟨by decide, by decide,
   ((startCommit_branch_tip stC5 "r" "c2" "" "b" (some 9) [0] (by decide) (by decide)).2
       ((startCommit stC5 "r" "c2" "" "b" (some 9) [0]).toOption.getD emptyDriver)
       (by decide) 0 (by decide) tipC5 (by decide)).2.2.1⟩


theorem cleanLoopF_nilF (r : Bool) (f : Nat) (out : Path) (dd : Nat) :
    cleanLoopF r (f + 1) [] out dd = out := rfl

theorem cleanLoopF_slash (r : Bool) (f : Nat) (rest out : Path) (dd : Nat) :
    cleanLoopF r (f + 1) ('/' :: rest) out dd = cleanLoopF r f rest out dd := rfl

theorem cleanLoopF_dot (r : Bool) (f : Nat) (out : Path) (dd : Nat) :
    cleanLoopF r (f + 1) ['.'] out dd = out := rfl

theorem cleanLoopF_dotslash (r : Bool) (f : Nat) (rest out : Path) (dd : Nat) :
    cleanLoopF r (f + 1) ('.' :: '/' :: rest) out dd = cleanLoopF r f rest out dd := rfl

theorem cleanLoopF_dotdot (r : Bool) (f : Nat) (rest out : Path) (dd : Nat) :
    cleanLoopF r (f + 1) ('.' :: '.' :: rest) out dd =
      (if rest = [] ∨ rest.head? = some '/' then
        cleanLoopF r f rest (dotdotStep r out dd).1 (dotdotStep r out dd).2
      else
        cleanLoopF r f (rest.dropWhile (· ≠ '/'))
          (writeSeg r out ('.' :: '.' :: rest.takeWhile (· ≠ '/'))) dd) := rfl

theorem cleanLoopF_seg (r : Bool) (f : Nat) (c : Char) (rest out : Path) (dd : Nat)
    (h1 : c ≠ '/')
    (h2 : c = '.' → rest = [] → False)
    (h3 : ∀ rtl, c = '.' → rest = '/' :: rtl → False)
    (h4 : ∀ rtl, c = '.' → rest = '.' :: rtl → False) :
    cleanLoopF r (f + 1) (c :: rest) out dd =
      cleanLoopF r f (rest.dropWhile (· ≠ '/'))
        (writeSeg r out (c :: rest.takeWhile (· ≠ '/'))) dd := by
  rw [cleanLoopF]
  · exact fun hc => h1 hc
  · exact h2
  · exact h3
  · exact h4

theorem tw_dw_length (l : Path) :
    (l.takeWhile (· ≠ '/')).length + (l.dropWhile (· ≠ '/')).length = l.length := by
  rw [← List.length_append, List.takeWhile_append_dropWhile]

theorem tw_append_slash (l : Path) :
    (l ++ ['/']).takeWhile (· ≠ '/') = l.takeWhile (· ≠ '/') := by
  induction l with
  | nil => simp [List.takeWhile]
  | cons c t ih =>
    by_cases hc : c = '/'
    · simp [List.takeWhile, hc]
    · simp only [List.cons_append, List.takeWhile]
      simp only [show (decide ¬c = '/') = true by simp [hc]]
      exact congrArg (List.cons c) ih

theorem dw_append_slash (l : Path) :
    (l ++ ['/']).dropWhile (· ≠ '/') = l.dropWhile (· ≠ '/') ++ ['/'] := by
  induction l with
  | nil => simp [List.dropWhile]
  | cons c t ih =>
    by_cases hc : c = '/'
    · simp [List.dropWhile, hc]
    · simp only [List.cons_append, List.dropWhile]
      simp only [show (decide ¬c = '/') = true by simp [hc]]
      exact ih

theorem dw_head (l : Path) :
    l.dropWhile (· ≠ '/') = [] ∨ (l.dropWhile (· ≠ '/')).head? = some '/' := by
  induction l with
  | nil => left; rfl
  | cons c t ih =>
    by_cases hc : c = '/'
    · right
      simp [List.dropWhile, hc]
    · simp only [List.dropWhile]
      simp only [show (decide ¬c = '/') = true by simp [hc]]
      exact ih

theorem writeSeg_nilF (seg : Path) : writeSeg false [] seg = seg := by
  simp [writeSeg]

theorem writeSeg_consF (c0 : Char) (o seg : Path) :
    writeSeg false (c0 :: o) seg = (c0 :: o) ++ '/' :: seg := by
  simp [writeSeg]

theorem dotdotStep_back (r : Bool) (out : Path) (dd : Nat) (h : dd < out.length) :
    dotdotStep r out dd = (out.take (backW out dd (out.length - 1)), dd) := by
  unfold dotdotStep
  rw [if_pos h]

theorem dotdotStep_appF (out : Path) (dd : Nat) (h : ¬dd < out.length) :
    dotdotStep false out dd =
      (if 0 < out.length then (out ++ ['/', '.', '.'], out.length + 3)
       else (out ++ ['.', '.'], out.length + 2)) := by
  unfold dotdotStep
  rw [if_neg h]
  rfl

theorem take_head_ne (k : Nat) (l : Path) (h : l.head? ≠ some '/') :
    (l.take k).head? ≠ some '/' := by
  cases k with
  | zero => simp
  | succ j =>
    cases l with
    | nil => simp
    | cons c t => simpa using h

theorem lastSlash_spec : ∀ p : Path, ∀ i, lastSlash p = some i →
    i < p.length ∧ p.get? i = some '/' := by
  intro p
  induction p with
  | nil => intro i h; exact absurd h (by simp [lastSlash])
  | cons c t ih =>
    intro i h
    unfold lastSlash at h
    cases ht : lastSlash t with
    | some j =>
      rw [ht] at h
      dsimp only at h
      have hj : j + 1 = i := Option.some.inj h
      obtain ⟨h1, h2⟩ := ih j ht
      rw [← hj]
      constructor
      · simpa using h1
      · simpa using h2
    | none =>
      rw [ht] at h
      dsimp only at h
      by_cases hc : c = '/'
      · rw [if_pos hc] at h
        have h0 : (0 : Nat) = i := Option.some.inj h
        rw [← h0]
        exact ⟨by simp, by simp [hc]⟩
      · rw [if_neg hc] at h
        exact absurd h (by simp)

theorem clean_rel_eq (p : Path) (hne : p ≠ []) (hrel : p.head? ≠ some '/') :
    clean p = (if cleanLoopF false (p.length + 1) p [] 0 = [] then ['.']
      else cleanLoopF false (p.length + 1) p [] 0) := by
  simp only [clean]
  rw [if_neg hne, if_neg hrel]


theorem tw_cons_ne (a : Char) (l : Path) (ha : a ≠ '/') :
    (a :: l).takeWhile (· ≠ '/') = a :: l.takeWhile (· ≠ '/') := by
  simp only [List.takeWhile]
  simp only [show (decide ¬a = '/') = true by simp [ha]]

theorem dw_cons_ne (a : Char) (l : Path) (ha : a ≠ '/') :
    (a :: l).dropWhile (· ≠ '/') = l.dropWhile (· ≠ '/') := by
  simp only [List.dropWhile]
  simp only [show (decide ¬a = '/') = true by simp [ha]]

theorem cleanLoopF_len_aux (N : Nat) (L : Nat)
    (ih : ∀ input : Path, input.length ≤ L → ∀ fuel out dd,
      input.length + 1 ≤ fuel → out.head? ≠ some '/' →
      out.length + input.length ≤ N →
      (out = [] ∨ input = [] ∨ out.length + input.length + 1 ≤ N ∨
        input.head? = some '/') →
      (cleanLoopF false fuel input out dd).length ≤ N ∧
      (cleanLoopF false fuel input out dd).head? ≠ some '/')
    (seg inp2 out : Path) (f dd : Nat)
    (hsegh : seg.head? ≠ some '/')
    (hL : inp2.length ≤ L)
    (hfuel : inp2.length + 1 ≤ f)
    (hhead : out.head? ≠ some '/')
    (hinp2 : inp2 = [] ∨ inp2.head? = some '/')
    (hs1 : out.length + (seg.length + inp2.length) ≤ N)
    (hs2 : out = [] ∨ out.length + (seg.length + inp2.length) + 1 ≤ N) :
    (cleanLoopF false f inp2 (writeSeg false out seg) dd).length ≤ N ∧
    (cleanLoopF false f inp2 (writeSeg false out seg) dd).head? ≠ some '/' := by
  cases out with
  | nil =>
    rw [writeSeg_nilF]
    apply ih inp2 hL f seg dd hfuel hsegh
      (by simp only [List.length_nil] at hs1; omega)
    rcases hinp2 with h | h
    · exact Or.inr (Or.inl h)
    · exact Or.inr (Or.inr (Or.inr h))
  | cons o0 ot =>
    rw [writeSeg_consF]
    have hsl : (o0 :: ot).length + (seg.length + inp2.length) + 1 ≤ N := by
      rcases hs2 with h | h
      · exact absurd h (by simp)
      · exact h
    apply ih inp2 hL f _ dd hfuel (by simpa using hhead)
      (by simp only [List.length_cons, List.length_append] at hsl ⊢; omega)
    rcases hinp2 with h | h
    · exact Or.inr (Or.inl h)
    · exact Or.inr (Or.inr (Or.inr h))

theorem cleanLoopF_len (N : Nat) :
    ∀ L : Nat, ∀ input : Path, input.length ≤ L → ∀ fuel out dd,
      input.length + 1 ≤ fuel →
      out.head? ≠ some '/' →
      out.length + input.length ≤ N →
      (out = [] ∨ input = [] ∨ out.length + input.length + 1 ≤ N ∨
        input.head? = some '/') →
      (cleanLoopF false fuel input out dd).length ≤ N ∧
      (cleanLoopF false fuel input out dd).head? ≠ some '/' := by
  intro L
  induction L with
  | zero =>
    intro input hL fuel out dd hfuel hhead hsum _
    have hinp : input = [] := List.length_eq_zero.mp (by omega)
    subst hinp
    obtain ⟨f, rfl⟩ : ∃ f, fuel = f + 1 := ⟨fuel - 1, by omega⟩
    rw [cleanLoopF_nilF]
    exact ⟨by simpa using hsum, hhead⟩
  | succ L ih =>
    intro input hL fuel out dd hfuel hhead hsum hdisj
    obtain ⟨f, rfl⟩ : ∃ f, fuel = f + 1 := ⟨fuel - 1, by omega⟩
    cases input with
    | nil =>
      rw [cleanLoopF_nilF]
      exact ⟨by simpa using hsum, hhead⟩
    | cons c rest =>
      simp only [List.length_cons] at hL hfuel hsum
      by_cases hc : c = '/'
      · subst hc
        rw [cleanLoopF_slash]
        apply ih rest (by omega) f out dd (by omega) hhead (by omega)
        exact Or.inr (Or.inr (Or.inl (by omega)))
      · by_cases hdot : c = '.'
        · subst hdot
          cases rest with
          | nil =>
            rw [cleanLoopF_dot]
            exact ⟨by omega, hhead⟩
          | cons c2 rest2 =>
            simp only [List.length_cons] at hL hfuel hsum
            by_cases hc2 : c2 = '/'
            · subst hc2
              rw [cleanLoopF_dotslash]
              apply ih rest2 (by omega) f out dd (by omega) hhead (by omega)
              exact Or.inr (Or.inr (Or.inl (by omega)))
            · by_cases hd2 : c2 = '.'
              · subst hd2
                rw [cleanLoopF_dotdot]
                by_cases hbr : rest2 = [] ∨ rest2.head? = some '/'
                · rw [if_pos hbr]
                  by_cases hdd : dd < out.length
                  · rw [dotdotStep_back false out dd hdd]
                    have htk : (out.take (backW out dd (out.length - 1))).length ≤
                        out.length := by
                      rw [List.length_take]
                      omega
                    apply ih rest2 (by omega) f _ dd (by omega)
                      (take_head_ne _ out hhead) (by omega)
                    rcases hbr with h | h
                    · exact Or.inr (Or.inl h)
                    · exact Or.inr (Or.inr (Or.inr h))
                  · rw [dotdotStep_appF out dd hdd]
                    by_cases hout : 0 < out.length
                    · rw [if_pos hout]
                      have hsl : out.length + (rest2.length + 2) + 1 ≤ N := by
                        rcases hdisj with h | h | h | h
                        · rw [h] at hout
                          simp at hout
                        · exact absurd h (by simp)
                        · simp only [List.length_cons] at h
                          omega
                        · exact absurd h (by simp)
                      have hhead2 : (out ++ ['/', '.', '.']).head? ≠ some '/' := by
                        cases out with
                        | nil => simp at hout
                        | cons o0 ot => simpa using hhead
                      apply ih rest2 (by omega) f _ _ (by omega) hhead2
                        (by simp only [List.length_append, List.length_cons,
                              List.length_nil]
                            omega)
                      rcases hbr with h | h
                      · exact Or.inr (Or.inl h)
                      · exact Or.inr (Or.inr (Or.inr h))
                    · rw [if_neg hout]
                      have houte : out = [] := List.length_eq_zero.mp (by omega)
                      subst houte
                      apply ih rest2 (by omega) f _ _ (by omega) (by simp)
                        (by simp only [List.length_append, List.length_cons,
                              List.length_nil] at hsum ⊢
                            omega)
                      rcases hbr with h | h
                      · exact Or.inr (Or.inl h)
                      · exact Or.inr (Or.inr (Or.inr h))
                · rw [if_neg hbr]
                  have htdw := tw_dw_length rest2
                  apply cleanLoopF_len_aux N L ih ('.' :: '.' :: rest2.takeWhile (· ≠ '/'))
                    (rest2.dropWhile (· ≠ '/')) out f dd (by simp) (by omega) (by omega)
                    hhead (dw_head rest2)
                  · simp only [List.length_cons]
                    omega
                  · rcases hdisj with h | h | h | h
                    · exact Or.inl h
                    · exact absurd h (by simp)
                    · simp only [List.length_cons] at h
                      exact Or.inr (by simp only [List.length_cons]; omega)
                    · exact absurd h (by simp)
              · rw [cleanLoopF_seg false f '.' (c2 :: rest2) out dd (by decide)
                    (fun _ h => List.noConfusion h)
                    (fun rtl _ h => hc2 (Option.some.inj (congrArg List.head? h)))
                    (fun rtl _ h => hd2 (Option.some.inj (congrArg List.head? h)))]
                have htdw := tw_dw_length (c2 :: rest2)
                apply cleanLoopF_len_aux N L ih ('.' :: (c2 :: rest2).takeWhile (· ≠ '/'))
                  ((c2 :: rest2).dropWhile (· ≠ '/')) out f dd (by simp)
                  (by simp only [List.length_cons] at htdw ⊢; omega)
                  (by simp only [List.length_cons] at htdw ⊢; omega)
                  hhead (dw_head (c2 :: rest2))
                · simp only [List.length_cons] at htdw ⊢
                  omega
                · rcases hdisj with h | h | h | h
                  · exact Or.inl h
                  · exact absurd h (by simp)
                  · simp only [List.length_cons] at h htdw ⊢
                    exact Or.inr (by omega)
                  · exact absurd h (by simp)
        · rw [cleanLoopF_seg false f c rest out dd hc (fun h _ => hdot h)
              (fun rtl h _ => hdot h) (fun rtl h _ => hdot h)]
          have htdw := tw_dw_length rest
          apply cleanLoopF_len_aux N L ih (c :: rest.takeWhile (· ≠ '/'))
            (rest.dropWhile (· ≠ '/')) out f dd
            (fun hx => hc (Option.some.inj hx)) (by omega) (by omega) hhead
            (dw_head rest)
          · simp only [List.length_cons]
            omega
          · rcases hdisj with h | h | h | h
            · exact Or.inl h
            · exact absurd h (by simp)
            · simp only [List.length_cons] at h
              exact Or.inr (by simp only [List.length_cons]; omega)
            · exact absurd h (fun hx => hc (Option.some.inj hx))


theorem cleanLoopF_append_slash (r : Bool) :
    ∀ L : Nat, ∀ input : Path, input.length ≤ L → ∀ f1 f2 out dd,
      input.length + 2 ≤ f1 → input.length + 1 ≤ f2 →
      cleanLoopF r f1 (input ++ ['/']) out dd = cleanLoopF r f2 input out dd := by
  intro L
  induction L with
  | zero =>
    intro input hL f1 f2 out dd hf1 hf2
    have hinp : input = [] := List.length_eq_zero.mp (by omega)
    subst hinp
    obtain ⟨g1, rfl⟩ : ∃ g, f1 = g + 1 + 1 := ⟨f1 - 2, by omega⟩
    obtain ⟨g2, rfl⟩ : ∃ g, f2 = g + 1 := ⟨f2 - 1, by omega⟩
    simp only [List.nil_append]
    rw [show (['/'] : Path) = '/' :: [] from rfl, cleanLoopF_slash, cleanLoopF_nilF,
      cleanLoopF_nilF]
  | succ L ih =>
    intro input hL f1 f2 out dd hf1 hf2
    obtain ⟨g1, rfl⟩ : ∃ g, f1 = g + 1 := ⟨f1 - 1, by omega⟩
    obtain ⟨g2, rfl⟩ : ∃ g, f2 = g + 1 := ⟨f2 - 1, by omega⟩
    cases input with
    | nil =>
      simp only [List.nil_append]
      obtain ⟨g1p, rfl⟩ : ∃ g, g1 = g + 1 := ⟨g1 - 1, by omega⟩
      rw [show (['/'] : Path) = '/' :: [] from rfl, cleanLoopF_slash, cleanLoopF_nilF,
        cleanLoopF_nilF]
    | cons c rest =>
      simp only [List.length_cons] at hL hf1 hf2
      simp only [List.cons_append]
      by_cases hc : c = '/'
      · subst hc
        rw [cleanLoopF_slash, cleanLoopF_slash]
        exact ih rest (by omega) g1 g2 out dd (by omega) (by omega)
      · by_cases hdot : c = '.'
        · subst hdot
          cases rest with
          | nil =>
            simp only [List.nil_append]
            obtain ⟨g1p, rfl⟩ : ∃ g, g1 = g + 1 := ⟨g1 - 1, by omega⟩
            rw [cleanLoopF_dotslash, cleanLoopF_nilF, cleanLoopF_dot]
          | cons c2 rest2 =>
            simp only [List.length_cons] at hL hf1 hf2
            simp only [List.cons_append]
            by_cases hc2 : c2 = '/'
            · subst hc2
              rw [cleanLoopF_dotslash, cleanLoopF_dotslash]
              exact ih rest2 (by omega) g1 g2 out dd (by omega) (by omega)
            · by_cases hd2 : c2 = '.'
              · subst hd2
                rw [cleanLoopF_dotdot, cleanLoopF_dotdot]
                by_cases hbr : rest2 = [] ∨ rest2.head? = some '/'
                · have hbr2 : rest2 ++ ['/'] = [] ∨ (rest2 ++ ['/']).head? = some '/' := by
                    rcases hbr with h | h
                    · right
                      rw [h]
                      rfl
                    · right
                      cases rest2 with
                      | nil => rfl
                      | cons a b => simpa using h
                  rw [if_pos hbr2, if_pos hbr]
                  exact ih rest2 (by omega) g1 g2 _ _ (by omega) (by omega)
                · have hbr2 : ¬(rest2 ++ ['/'] = [] ∨ (rest2 ++ ['/']).head? = some '/') := by
                    push_neg at hbr ⊢
                    obtain ⟨hb1, hb2⟩ := hbr
                    constructor
                    · simp
                    · cases rest2 with
                      | nil => exact absurd rfl hb1
                      | cons a b => simpa using hb2
                  rw [if_neg hbr2, if_neg hbr]
                  rw [tw_append_slash rest2, dw_append_slash rest2]
                  have htdw := tw_dw_length rest2
                  exact ih (rest2.dropWhile (· ≠ '/')) (by omega) g1 g2 _ dd
                    (by omega) (by omega)
              · rw [cleanLoopF_seg r g1 '.' (c2 :: (rest2 ++ ['/'])) out dd (by decide)
                    (fun _ h => List.noConfusion h)
                    (fun rtl _ h => hc2 (Option.some.inj (congrArg List.head? h)))
                    (fun rtl _ h => hd2 (Option.some.inj (congrArg List.head? h))),
                  cleanLoopF_seg r g2 '.' (c2 :: rest2) out dd (by decide)
                    (fun _ h => List.noConfusion h)
                    (fun rtl _ h => hc2 (Option.some.inj (congrArg List.head? h)))
                    (fun rtl _ h => hd2 (Option.some.inj (congrArg List.head? h)))]
                rw [tw_cons_ne c2 (rest2 ++ ['/']) hc2, dw_cons_ne c2 (rest2 ++ ['/']) hc2,
                  tw_cons_ne c2 rest2 hc2, dw_cons_ne c2 rest2 hc2,
                  tw_append_slash rest2, dw_append_slash rest2]
                have htdw := tw_dw_length rest2
                exact ih (rest2.dropWhile (· ≠ '/')) (by omega) g1 g2 _ dd
                  (by omega) (by omega)
        · rw [cleanLoopF_seg r g1 c (rest ++ ['/']) out dd hc (fun h _ => hdot h)
              (fun rtl h _ => hdot h) (fun rtl h _ => hdot h),
            cleanLoopF_seg r g2 c rest out dd hc (fun h _ => hdot h)
              (fun rtl h _ => hdot h) (fun rtl h _ => hdot h)]
          rw [tw_append_slash rest, dw_append_slash rest]
          have htdw := tw_dw_length rest
          exact ih (rest.dropWhile (· ≠ '/')) (by omega) g1 g2 _ dd
            (by omega) (by omega)

theorem clean_append_slash_rel (x : Path) (hx : x ≠ []) (hrel : x.head? ≠ some '/') :
    clean (x ++ ['/']) = clean x := by
  have h1 : (x ++ ['/']).head? = x.head? := by
    cases x with
    | nil => exact absurd rfl hx
    | cons c t => rfl
  have h2 : cleanLoopF false ((x ++ ['/']).length + 1) (x ++ ['/']) [] 0 =
      cleanLoopF false (x.length + 1) x [] 0 := by
    apply cleanLoopF_append_slash false x.length x le_rfl
    · simp only [List.length_append, List.length_cons, List.length_nil]
      omega
    · omega
  rw [clean_rel_eq (x ++ ['/']) (by simp) (by rw [h1]; exact hrel),
    clean_rel_eq x hx hrel, h2]

theorem clean_len_rel (q : Path) (hq : q.head? ≠ some '/') :
    (clean q).length ≤ max q.length 1 ∧ (clean q).head? ≠ some '/' := by
  by_cases hne : q = []
  · subst hne
    exact ⟨by decide, by decide⟩
  · rw [clean_rel_eq q hne hq]
    obtain ⟨hl, hh⟩ := cleanLoopF_len (max q.length 1) q.length q le_rfl (q.length + 1)
      [] 0 le_rfl (by simp) (by simp only [List.length_nil]; omega) (Or.inl rfl)
    by_cases hres : cleanLoopF false (q.length + 1) q [] 0 = []
    · rw [if_pos hres]
      exact ⟨by simp only [List.length_singleton]; omega, by decide⟩
    · rw [if_neg hres]
      exact ⟨hl, hh⟩

theorem dir_of_no_slash (p : Path) (h : lastSlash p = none) : dir p = ['.'] := by
  have hd : dir p = clean [] := by
    unfold dir
    rw [h]
  rw [hd]
  decide

theorem dir_lt (p : Path) (i : Nat) (hrel : p.head? ≠ some '/')
    (hls : lastSlash p = some i) :
    (dir p).length < p.length ∧ (dir p).head? ≠ some '/' := by
  obtain ⟨hi, hget⟩ := lastSlash_spec p i hls
  have hi1 : 1 ≤ i := by
    by_contra hcon
    have h0 : i = 0 := by omega
    subst h0
    cases p with
    | nil => simp at hi
    | cons c t =>
      have hcc : c = '/' := by simpa using hget
      exact hrel (by simp [hcc])
  have htake : p.take (i + 1) = p.take i ++ ['/'] := by
    have hget2 : p[i]? = some '/' := by
      rw [← List.get?_eq_getElem?]
      exact hget
    rw [List.take_succ, hget2]
    rfl
  have hdir : dir p = clean (p.take (i + 1)) := by
    unfold dir
    rw [hls]
  have htrel : (p.take i).head? ≠ some '/' := take_head_ne i p hrel
  have hlen : (p.take i).length = i := by
    rw [List.length_take]
    omega
  have htne : p.take i ≠ [] := by
    intro hcon
    rw [hcon] at hlen
    simp at hlen
    omega
  rw [hdir, htake, clean_append_slash_rel (p.take i) htne htrel]
  obtain ⟨hl, hh⟩ := clean_len_rel (p.take i) htrel
  refine ⟨?_, hh⟩
  rw [hlen] at hl
  omega

theorem dirIter_reach : ∀ N : Nat, ∀ p : Path, p.length ≤ N → p.head? ≠ some '/' →
    ∃ n, dirIter n p = ['.'] := by
  intro N
  induction N with
  | zero =>
    intro p hl _
    have hp : p = [] := List.length_eq_zero.mp (by omega)
    subst hp
    exact ⟨1, by decide⟩
  | succ N ih =>
    intro p hl hrel
    cases hls : lastSlash p with
    | none =>
      refine ⟨1, ?_⟩
      show dirIter 0 (dir p) = ['.']
      rw [dir_of_no_slash p hls]
      rfl
    | some i =>
      obtain ⟨hlt, hh⟩ := dir_lt p i hrel hls
      obtain ⟨n, hn⟩ := ih (dir p) (by omega) hh
      exact ⟨n + 1, hn⟩


theorem addDirsLoop_some_iff : ∀ fuel : Nat, ∀ appends c d,
    (addDirsLoop fuel appends c d).isSome = true ↔
      ∃ n, n < fuel ∧ dirIter n d = ['.'] := by
  intro fuel
  induction fuel with
  | zero =>
    intro a c d
    simp [addDirsLoop]
  | succ f ih =>
    intro a c d
    simp only [addDirsLoop]
    by_cases hd : d = ['.']
    · rw [if_pos hd]
      simp only [Option.isSome_some]
      constructor
      · intro _
        exact ⟨0, by omega, hd⟩
      · intro _
        trivial
    · rw [if_neg hd]
      rw [ih _ d (dir d)]
      constructor
      · rintro ⟨n, hn, hiter⟩
        exact ⟨n + 1, by omega, hiter⟩
      · rintro ⟨n, hn, hiter⟩
        cases n with
        | zero => exact absurd hiter hd
        | succ m => exact ⟨m, by omega, hiter⟩

theorem addDirsLoop_mono : ∀ fuel : Nat, ∀ appends ch dp aps2,
    addDirsLoop fuel appends ch dp = some aps2 →
    ∀ d c, lookupChild appends d c = some true → lookupChild aps2 d c = some true := by
  intro fuel
  induction fuel with
  | zero =>
    intro a ch dp aps2 h
    exact absurd h (by simp [addDirsLoop])
  | succ f ih =>
    intro a ch dp aps2 h d c hl
    simp only [addDirsLoop] at h
    have hstep : lookupChild (a.set dp
        { (a.find? dp).getD ⟨[], [], none⟩ with
          children := ((a.find? dp).getD ⟨[], [], none⟩).children.set ch true }) d c =
        some true := by
      unfold lookupChild at hl ⊢
      rw [GoMap.find?_set]
      by_cases hdc : dp = d
      · rw [if_pos hdc]
        simp only [Option.getD_some]
        rw [GoMap.find?_set]
        by_cases hcc : ch = c
        · rw [if_pos hcc]
        · rw [if_neg hcc]
          rw [← hdc] at hl
          exact hl
      · rw [if_neg hdc]
        exact hl
    by_cases hdot : dp = ['.']
    · rw [if_pos hdot] at h
      have hx : _ = aps2 := Option.some.inj h
      rw [← hx]
      exact hstep
    · rw [if_neg hdot] at h
      exact ih _ dp (dir dp) aps2 h d c hstep

theorem addDirsLoop_records : ∀ fuel : Nat, ∀ appends ch dp aps2,
    addDirsLoop fuel appends ch dp = some aps2 →
    lookupChild aps2 dp ch = some true ∧
    ∀ k, (∀ m, m ≤ k → dirIter m dp ≠ ['.']) →
      lookupChild aps2 (dirIter (k + 1) dp) (dirIter k dp) = some true := by
  intro fuel
  induction fuel with
  | zero =>
    intro a ch dp aps2 h
    exact absurd h (by simp [addDirsLoop])
  | succ f ih =>
    intro a ch dp aps2 h
    simp only [addDirsLoop] at h
    have hstep : lookupChild (a.set dp
        { (a.find? dp).getD ⟨[], [], none⟩ with
          children := ((a.find? dp).getD ⟨[], [], none⟩).children.set ch true }) dp ch =
        some true := by
      unfold lookupChild
      rw [GoMap.find?_set, if_pos rfl]
      simp only [Option.getD_some]
      rw [GoMap.find?_set, if_pos rfl]
    by_cases hdot : dp = ['.']
    · rw [if_pos hdot] at h
      have hx : _ = aps2 := Option.some.inj h
      constructor
      · rw [← hx]
        exact hstep
      · intro k hk
        exact absurd hdot (hk 0 (by omega))
    · rw [if_neg hdot] at h
      obtain ⟨ih1, ih2⟩ := ih _ dp (dir dp) aps2 h
      constructor
      · exact addDirsLoop_mono f _ dp (dir dp) aps2 h dp ch hstep
      · intro k hk
        cases k with
        | zero => exact ih1
        | succ j =>
          have hj : ∀ m, m ≤ j → dirIter m (dir dp) ≠ ['.'] := by
            intro m hm
            exact hk (m + 1) (by omega)
          exact ih2 j hj

/-- C10: `addDirs` (invoked by every `PutFile`) terminates exactly when the
`path.Dir` iteration from the file's path reaches `"."`; in particular it
terminates for every relative (non-slash-prefixed) path, and on termination
every walked ancestor directory has its immediate child recorded in its
`Append.Children` set (the file's raw path in its parent directory, and
each ancestor in the next one, up to `"."`). -/
theorem addDirs_termination (aps : GoMap Path Append) (childPath : Path) :
    ((∃ fuel, (addDirs fuel aps childPath).isSome = true) ↔
      ∃ n, dirIter n childPath = ['.']) ∧
    (childPath.head? ≠ some '/' → ∃ n, dirIter n childPath = ['.']) ∧
    (∀ fuel aps2, addDirs fuel aps childPath = some aps2 →
      lookupChild aps2 (dir childPath) childPath = some true ∧
      ∀ k, (∀ m, m ≤ k → dirIter m (dir childPath) ≠ ['.']) →
        lookupChild aps2 (dirIter (k + 1) (dir childPath))
          (dirIter k (dir childPath)) = some true) := by
  refine ⟨⟨?_, ?_⟩, ?_, ?_⟩
  · rintro ⟨fuel, hf⟩
    obtain ⟨n, _, hn⟩ := (addDirsLoop_some_iff fuel aps childPath (dir childPath)).mp hf
    exact ⟨n + 1, hn⟩
  · rintro ⟨n, hn⟩
    refine ⟨n + 1, ?_⟩
    show (addDirsLoop (n + 1) aps childPath (dir childPath)).isSome = true
    apply (addDirsLoop_some_iff (n + 1) aps childPath (dir childPath)).mpr
    cases n with
    | zero =>
      refine ⟨0, by omega, ?_⟩
      show dir childPath = ['.']
      have hn0 : childPath = ['.'] := hn
      rw [hn0]
      decide
    | succ m => exact ⟨m, by omega, hn⟩
  · intro hrel
    exact dirIter_reach childPath.length childPath le_rfl hrel
  · intro fuel aps2 h
    exact addDirsLoop_records fuel aps childPath (dir childPath) aps2 h

theorem addDirs_termination_witness :
    addDirs 3 [] ['a', '/', 'b'] =
      some ((addDirs 3 [] ['a', '/', 'b']).getD []) ∧
    lookupChild ((addDirs 3 [] ['a', '/', 'b']).getD []) (dir ['a', '/', 'b'])
      ['a', '/', 'b'] = some true :=
  ⟨by decide,
   ((addDirs_termination [] ['a', '/', 'b']).2.2 3
      ((addDirs 3 [] ['a', '/', 'b']).getD []) (by decide)).1⟩



theorem addShardLoop_nil_leaves (sh : Nat) (s : DriverState) (di : DiffInfo)
    (rest : List DiffInfo) :
    ((addShardLoop sh s [] (di :: rest)).2.2).isSome = true := by
  simp only [addShardLoop]
  split
  · rfl
  · rename_i fin1 hins
    cases hpc : di.parentCommit with
    | none => rfl
    | some pc => rfl

/-- C1 (amended): the round-trip fails.  `AddShard`'s provisional leaves
`diffMap` starts empty and never receives a repo layer, and `diffMap.insert`
demands one, so every replay containing at least one diff makes `AddShard`
return an error (the very first leaves insert fails); only the empty replay
succeeds, and it leaves the fresh driver unchanged instead of rebuilding the
old views. -/
theorem addShard_nonempty_errs :
    (∀ (s : DriverState) (sh : Nat) (di : DiffInfo) (rest : List DiffInfo),
      ((addShard s sh (di :: rest)).2).isSome = true) ∧
    (∀ (s : DriverState) (sh : Nat), addShard s sh [] = (s, none)) := by
  constructor
  · intro s sh di rest
    have hloop := addShardLoop_nil_leaves sh s di rest
    rcases hx : addShardLoop sh s [] (di :: rest) with ⟨s1, lv, oe⟩
    rw [hx] at hloop
    cases oe with
    | none => simp at hloop
    | some e =>
      unfold addShard
      rw [hx]
      rfl
  · intro s sh
    rfl

/-- C1 counterexample: replaying the single finished diff of `stC1` into a
fresh driver makes `AddShard` fail with `repo r not found`, and the rebuilt
driver's leaves view differs from the original's (the finished view was
already rebuilt when the error hit, showing the failure comes from the
provisional leaves map, not the input). -/
theorem addShard_roundtrip_cex :
    (addShard emptyDriver 0 [diC1]).2 = some "repo r not found" ∧
    (addShard emptyDriver 0 [diC1]).1.leaves ≠ stC1.leaves ∧
    (addShard emptyDriver 0 [diC1]).1.finished = stC1.finished := by
  refine ⟨by decide, by decide, by decide⟩

end PfsProof
